import Mathlib

set_option maxRecDepth 100000

/-!
Verification of the staged configuration mutation engine of
`netadmin/app.py` (IntNetAdmin dashboard).

The Python source manipulates configuration text with `re` patterns and
keeps an in-memory pending-change log.  We embed the relevant functions
shallowly:

* text is `List Char`;
* each regular expression used by the source is translated into an
  executable matcher built from combinators that implement Python `re`
  semantics (leftmost match, greedy quantifiers with backtracking,
  explored in priority order);
* the mutable `pending_changes` dict becomes explicit state threaded
  through the staging / apply functions;
* external effects (`run_with_sudo`, wall-clock timestamps) become
  parameters: an oracle mapping a command vector to its
  `(success, stdout, stderr)` outcome, and timestamp / serial strings.

Definition names follow the Python source (`add_dhcp_host`,
`apply_dhcp_changes`, ...).
-/

namespace NetAdmin

abbrev Text := List Char

/-- Python `\s` (ASCII range, which is all the source's inputs use). -/
def pySpace (c : Char) : Bool :=
  c = ' ' || c = '\t' || c = '\n' || c = '\r' || c = '\x0b' || c = '\x0c'

/-- Python `\d`. -/
def pyDigit (c : Char) : Bool := c.isDigit

/-- Python `\w` (ASCII part: letters, digits, underscore). -/
def pyWord (c : Char) : Bool := c.isAlphanum || c = '_'

/-- The class `[\w:]` from the MAC pattern. -/
def wordColon (c : Char) : Bool := pyWord c || c = ':'

/-- The class `[\d.]` from the A-record pattern. -/
def digitDot (c : Char) : Bool := pyDigit c || c = '.'

/-- Python `str.rstrip()`: drop trailing whitespace. -/
def pyRstrip (s : Text) : Text :=
  (s.reverse.dropWhile pySpace).reverse

/-- Python `str.rstrip(';')`: drop trailing semicolons. -/
def pyRstripSemi (s : Text) : Text :=
  (s.reverse.dropWhile (· = ';')).reverse

/-- Python `str.lower()` (ASCII part). -/
def pyLower (s : Text) : Text := s.map Char.toLower

/-! ### Pending-change data model (the `pending_changes` dict, lines 59-64)

A DHCP entry is `{action, hostname, data, timestamp}` where `data` holds
optional `mac` / `ip` strings (absent keys and `None` both read back as
`None` through `data.get`, so both are `none` here).  A DNS entry is
`{action, zone, record, timestamp}` with `record = {name, type, value?}`.
-/

inductive ChangeAction
  | add | edit | delete
  deriving DecidableEq, Repr

structure DhcpChange where
  action : ChangeAction
  hostname : Text
  mac : Option Text
  ip : Option Text
  ts : Text
  deriving DecidableEq, Repr

structure DnsChange where
  action : ChangeAction
  zone : Text
  name : Text
  rtype : Text
  value : Option Text
  ts : Text
  deriving DecidableEq, Repr

/-- Python truthiness of `data.get('mac')`: `None` and `''` are falsy. -/
def optTruthy : Option Text → Bool
  | none => false
  | some s => !s.isEmpty

/-! ### Staging operations (source lines 204-239)

Each takes the current `pending_changes['dhcp']` list and returns the
new list.  The timestamp is a parameter standing for
`datetime.now().isoformat()`.
-/

/-- `add_dhcp_host` (lines 204-213): appends, never evicts. -/
def add_dhcp_host (hostname mac ip : Text) (ts : Text)
    (log : List DhcpChange) : List DhcpChange :=
  log ++ [{ action := .add, hostname := hostname,
            mac := some mac, ip := some ip, ts := ts }]

/-- `edit_dhcp_host` (lines 215-226): first drops every pending change
whose hostname equals `hostname`, then appends the edit. -/
def edit_dhcp_host (hostname : Text) (mac ip : Option Text) (ts : Text)
    (log : List DhcpChange) : List DhcpChange :=
  (log.filter (fun c => c.hostname ≠ hostname)) ++
    [{ action := .edit, hostname := hostname, mac := mac, ip := ip, ts := ts }]

/-- `delete_dhcp_host` (lines 228-239): same eviction, then appends the
delete (whose `data` dict is empty, hence `none` fields). -/
def delete_dhcp_host (hostname : Text) (ts : Text)
    (log : List DhcpChange) : List DhcpChange :=
  (log.filter (fun c => c.hostname ≠ hostname)) ++
    [{ action := .delete, hostname := hostname, mac := none, ip := none, ts := ts }]

/-- `add_dns_record` (lines 468-477): appends, no eviction. -/
def add_dns_record (zone name rtype value : Text) (ts : Text)
    (log : List DnsChange) : List DnsChange :=
  log ++ [{ action := .add, zone := zone, name := name, rtype := rtype,
            value := some value, ts := ts }]

/-- `edit_dns_record` (lines 446-455): appends, no eviction. -/
def edit_dns_record (zone name rtype value : Text) (ts : Text)
    (log : List DnsChange) : List DnsChange :=
  log ++ [{ action := .edit, zone := zone, name := name, rtype := rtype,
            value := some value, ts := ts }]

/-- `delete_dns_record` (lines 457-466): appends, no eviction; the
record dict carries no `value` key. -/
def delete_dns_record (zone name rtype : Text) (ts : Text)
    (log : List DnsChange) : List DnsChange :=
  log ++ [{ action := .delete, zone := zone, name := name, rtype := rtype,
            value := none, ts := ts }]

/-! ### Regular-expression combinators

Each `re` pattern used by the source is compiled, by hand, into a
matcher built from the combinators below.  A matcher continuation
consumes a prefix of the input and yields the remaining suffix together
with the captured group texts.  Greedy quantifiers explore candidate
lengths longest-first and pass the continuation to each candidate, which
is exactly Python's leftmost / greedy / backtracking match order.
-/

abbrev K := Text → Option (Text × List Text)

def kEnd : K := fun s => some (s, [])

def firstSome {α β : Type} (f : α → Option β) : List α → Option β
  | [] => none
  | a :: as =>
    match f a with
    | some b => some b
    | none => firstSome f as

/-- `[n, n-1, ..., 1]`: greedy candidate lengths for a `+` quantifier. -/
def descToOne : Nat → List Nat
  | 0 => []
  | n+1 => (n+1) :: descToOne n

/-- `[n, n-1, ..., 0]`: greedy candidate lengths for a `*` quantifier. -/
def descToZero (n : Nat) : List Nat := descToOne n ++ [0]

/-- A literal piece of pattern (also the result of `re.escape`). -/
def goLit (l : Text) (k : K) : K := fun s =>
  if l.isPrefixOf s then k (s.drop l.length) else none

/-- Greedy `C+` for a single-character class `C`: Python tries the
longest run first, then backtracks through shorter nonempty prefixes. -/
def goClassPlus (p : Char → Bool) (k : K) : K := fun s =>
  firstSome (fun i => k (s.drop i)) (descToOne (s.takeWhile p).length)

/-- Greedy `C*`. -/
def goClassStar (p : Char → Bool) (k : K) : K := fun s =>
  firstSome (fun i => k (s.drop i)) (descToZero (s.takeWhile p).length)

/-- Greedy `.*` (`.` matches anything except a newline). -/
def goDotStar (k : K) : K := goClassStar (fun c => c ≠ '\n') k

/-- `C{n}`: exactly `n` repetitions of a character class. -/
def goRepClass (p : Char → Bool) (n : Nat) (k : K) : K := fun s =>
  if (s.take n).length = n && (s.take n).all p then k (s.drop n) else none

/-- Greedy `(?:r)?`: try with `r` first, then without. -/
def goOpt (r : K → K) (k : K) : K := fun s =>
  match r k s with
  | some x => some x
  | none => k s

/-- A capture group `(r)`: records the text `r` consumed.  Captures end
up listed in opening-parenthesis order (the source's patterns have no
nested capture groups). -/
def goGroup (r : K → K) (k : K) : K := fun s =>
  r (fun s2 => (k s2).map (fun x => (x.1, (s.take (s.length - s2.length)) :: x.2))) s

/-- `$` in MULTILINE mode: end of text or just before a newline;
consumes nothing. -/
def goEol (k : K) : K := fun s =>
  match s with
  | [] => k s
  | c :: _ => if c = '\n' then k s else none

/-- A match attempt at one position.  `prev` is the character just
before the position (`none` at the very start of the text). -/
abbrev Matcher := Option Char → Text → Option (Text × List Text)

def noAnchor (m : K) : Matcher := fun _ s => m s

/-- `^` in MULTILINE mode: only matches at the start of the text or
right after a newline. -/
def bolAnchor (m : K) : Matcher := fun prev s =>
  match prev with
  | none => m s
  | some c => if c = '\n' then m s else none

/-- `re.search`: first match position left-to-right; returns its
captured groups. -/
def reSearchCaps (m : Matcher) : Option Char → Text → Option (List Text)
  | prev, [] => (m prev []).map (fun x => x.2)
  | prev, c :: cs =>
    match m prev (c :: cs) with
    | some x => some x.2
    | none => reSearchCaps m (some c) cs

/-- `re.finditer`: all non-overlapping matches left-to-right, scanning
resuming after each match; returns their captured groups.  The fuel
argument only forces termination; it strictly exceeds the distance the
scan can still travel, so the `0` case is unreachable. -/
def reFindAllGo (m : Matcher) : Nat → Option Char → Text → List (List Text)
  | 0, _, _ => []
  | _+1, prev, [] => (m prev []).map (fun x => x.2) |>.toList
  | fuel+1, prev, c :: cs =>
    match m prev (c :: cs) with
    | some (rest, caps) =>
      if rest.length < (c :: cs).length then
        let consumed := (c :: cs).take ((c :: cs).length - rest.length)
        caps :: reFindAllGo m fuel (match consumed.getLast? with
                                    | some d => some d
                                    | none => prev) rest
      else caps :: reFindAllGo m fuel (some c) cs
    | none => reFindAllGo m fuel (some c) cs

def reFindAll (m : Matcher) (prev : Option Char) (s : Text) : List (List Text) :=
  reFindAllGo m (s.length + 1) prev s

/-- `re.sub`: replace every non-overlapping match, left to right; the
replacement is computed from the captures (template expansion).  Fuel as
in `reFindAllGo`. -/
def reSubGo (m : Matcher) (repl : List Text → Text) : Nat → Option Char → Text → Text
  | 0, _, s => s
  | _+1, prev, [] =>
    match m prev [] with
    | some x => repl x.2
    | none => []
  | fuel+1, prev, c :: cs =>
    match m prev (c :: cs) with
    | some (rest, caps) =>
      if rest.length < (c :: cs).length then
        let consumed := (c :: cs).take ((c :: cs).length - rest.length)
        repl caps ++ reSubGo m repl fuel (match consumed.getLast? with
                                          | some d => some d
                                          | none => prev) rest
      else c :: reSubGo m repl fuel (some c) cs
    | none => c :: reSubGo m repl fuel (some c) cs

def reSub (m : Matcher) (repl : List Text → Text) (prev : Option Char) (s : Text) : Text :=
  reSubGo m repl (s.length + 1) prev s

/-- Expansion of a `re.sub` replacement template: `\g<n>` and `\n`
group references, plus the standard character escapes.  (The source's
replacement strings only ever contain `\g<1>` plus literal text; an
escape Python would reject is kept verbatim here.) -/
def expandRepl (caps : List Text) : Text → Text
  | [] => []
  | c :: rest =>
    if c = '\\' then
      match rest with
      | 'g' :: '<' :: d :: '>' :: rest2 =>
        if pyDigit d then ((caps.get? (d.toNat - '0'.toNat - 1)).getD []) ++ expandRepl caps rest2
        else '\\' :: 'g' :: expandRepl caps ('<' :: d :: '>' :: rest2)
      | d :: rest2 =>
        if pyDigit d && d ≠ '0' then ((caps.get? (d.toNat - '0'.toNat - 1)).getD []) ++ expandRepl caps rest2
        else if d = '\\' then '\\' :: expandRepl caps rest2
        else if d = 'n' then '\n' :: expandRepl caps rest2
        else if d = 't' then '\t' :: expandRepl caps rest2
        else '\\' :: d :: expandRepl caps rest2
      | [] => ['\\']
    else c :: expandRepl caps rest

/-! ### DHCP config reader (`parse_dhcp_config`, lines 142-202)

We embed the host-extraction part (lines 156-172) plus the final
sorting (line 196); the claims under verification only concern the
`hosts` component.  The `'type': 'static'` constant field is omitted.
-/

/-- The pattern `host\s+(\S+)\s*\{([^}]+)\}` (line 157). -/
def hostDeclK : K :=
  goLit ("host".toList)
    (goClassPlus pySpace
      (goGroup (goClassPlus (fun c => !pySpace c))
        (goClassStar pySpace
          (goLit ['\x7b']
            (goGroup (goClassPlus (fun c => c ≠ '\x7d'))
              (goLit ['\x7d'] kEnd))))))

/-- The pattern `hardware\s+ethernet\s+([\w:]+)` (line 162). -/
def macSearchK : K :=
  goLit ("hardware".toList)
    (goClassPlus pySpace
      (goLit ("ethernet".toList)
        (goClassPlus pySpace
          (goGroup (goClassPlus wordColon) kEnd))))

/-- The pattern `fixed-address\s+(\S+)` (line 163). -/
def ipSearchK : K :=
  goLit ("fixed-address".toList)
    (goClassPlus pySpace
      (goGroup (goClassPlus (fun c => !pySpace c)) kEnd))

structure HostRec where
  name : Text
  mac : Text
  address : Option Text
  deriving DecidableEq, Repr

/-- The `re.finditer(host_pattern, content)` loop: (hostname, block)
pairs in match order. -/
def dhcpHostScan (content : Text) : List (Text × Text) :=
  (reFindAll (noAnchor hostDeclK) none content).filterMap
    (fun caps =>
      match caps with
      | [n, b] => some (n, b)
      | _ => none)

/-- Lines 162-172: a host block yields a record only when a
`hardware ethernet` line is found; the MAC is lower-cased and the
address, when present, has trailing semicolons stripped. -/
def hostFromBlock (hostname blk : Text) : Option HostRec :=
  match reSearchCaps (noAnchor macSearchK) none blk with
  | some (mac :: _) =>
    some { name := hostname, mac := pyLower mac,
           address :=
             match reSearchCaps (noAnchor ipSearchK) none blk with
             | some (ip :: _) => some (pyRstripSemi ip)
             | _ => none }
  | _ => none

/-- Python string `<`: lexicographic by code point (`≤` version). -/
def lexLe : Text → Text → Bool
  | [], _ => true
  | _ :: _, [] => false
  | a :: as, b :: bs => if a = b then lexLe as bs else decide (a.val < b.val)

/-- A stable insertion into a sorted list: an element goes before the
first element it is `le`-related to, hence after earlier equals —
matching Python's stable `sorted`. -/
def insSorted {α : Type} (le : α → α → Bool) (x : α) : List α → List α
  | [] => [x]
  | y :: ys => if le x y then x :: y :: ys else y :: insSorted le x ys

def pySortBy {α : Type} (le : α → α → Bool) : List α → List α
  | [] => []
  | x :: xs => insSorted le x (pySortBy le xs)

def hostLe (a b : HostRec) : Bool := lexLe (pyLower a.name) (pyLower b.name)

/-- The `hosts` component of `parse_dhcp_config` (lines 156-172 and the
`sorted(hosts, key=lambda x: x['name'].lower())` of line 196). -/
def parse_dhcp_hosts (content : Text) : List HostRec :=
  pySortBy hostLe
    ((dhcpHostScan content).filterMap (fun nb => hostFromBlock nb.1 nb.2))

/-! ### DHCP apply engine (`apply_dhcp_changes`, lines 241-301) -/

/-- The delete pattern `host\s+H\s*\{[^}]+\}\s*` (line 259); the
hostname goes through `re.escape`, i.e. it is matched literally. -/
def dhcpDeleteK (hostname : Text) : K :=
  goLit ("host".toList)
    (goClassPlus pySpace
      (goLit hostname
        (goClassStar pySpace
          (goLit ['\x7b']
            (goClassPlus (fun c => c ≠ '\x7d')
              (goLit ['\x7d'] (goClassStar pySpace kEnd)))))))

/-- The edit pattern `(host\s+H\s*\{)([^}]+)(\})` (line 264). -/
def dhcpEditK (hostname : Text) : K :=
  goGroup
    (fun k =>
      goLit ("host".toList)
        (goClassPlus pySpace
          (goLit hostname (goClassStar pySpace (goLit ['\x7b'] k)))))
    (goGroup (goClassPlus (fun c => c ≠ '\x7d'))
      (goGroup (fun k => goLit ['\x7d'] k) kEnd))

/-- The f-string block appended by an `add` (lines 276-282): note the
leading and trailing newline of the triple-quoted literal.  An `add`
staged by `add_dhcp_host` always carries both fields, so the `getD`
defaults are never exercised. -/
def dhcpAddEntry (ch : DhcpChange) : Text :=
  ("\nhost ".toList) ++ ch.hostname ++ (" \x7b\n    hardware ethernet ".toList)
    ++ ch.mac.getD [] ++ (";\n    fixed-address ".toList) ++ ch.ip.getD []
    ++ (";\n\x7d\n".toList)

/-- The replacement block built for an `edit` (lines 267-272): opening
group, then one line per truthy payload field, newline, closing brace.
The pre-existing block body (`match.group(2)`) is discarded. -/
def dhcpEditNewBlock (g1 g3 : Text) (ch : DhcpChange) : Text :=
  g1
    ++ (if optTruthy ch.mac
        then ("\n    hardware ethernet ".toList) ++ ch.mac.getD [] ++ [';']
        else [])
    ++ (if optTruthy ch.ip
        then ("\n    fixed-address ".toList) ++ ch.ip.getD [] ++ [';']
        else [])
    ++ '\n' :: g3

/-- One iteration of the change loop (lines 252-282). -/
def applyDhcpChange (content : Text) (ch : DhcpChange) : Text :=
  match ch.action with
  | .delete =>
    reSub (noAnchor (dhcpDeleteK ch.hostname)) (fun _ => []) none content
  | .edit =>
    match reSearchCaps (noAnchor (dhcpEditK ch.hostname)) none content with
    | some (g1 :: _ :: g3 :: _) =>
      reSub (noAnchor (dhcpEditK ch.hostname))
        (fun caps => expandRepl caps (dhcpEditNewBlock g1 g3 ch)) none content
    | _ => content
  | .add => pyRstrip content ++ '\n' :: dhcpAddEntry ch

/-- The whole replay fold of lines 252-282. -/
def dhcp_fold_changes (content : Text) (changes : List DhcpChange) : Text :=
  changes.foldl applyDhcpChange content

/-- Outcomes of `run_with_sudo` (lines 121-136): the external command's
`(success, stdout, stderr)` is supplied by an oracle. -/
abbrev Oracle := List Text → Bool × Text × Text

def run_with_sudo (oracle : Oracle) (cmd : List Text) : Bool × Text × Text :=
  oracle cmd

def dhcpCpCmd (tempPath confPath : Text) : List Text :=
  [("cp".toList), tempPath, confPath]

def dhcpReloadCmd : List Text :=
  [("systemctl".toList), ("reload".toList), ("isc-dhcp-server".toList)]

structure DhcpApplyOut where
  success : Bool
  message : Text
  original : Text
  newText : Text
  log : List DhcpChange
  sudoCalls : List (List Text)
  deriving Repr

/-- `apply_dhcp_changes` (lines 241-301), under successful file I/O:
fold the drained changes over the current text, run the privileged copy,
and only on its success run the reload and clear the DHCP family.
`log` is `pending_changes['dhcp']` after the call and `sudoCalls` the
privileged commands issued, in order. -/
def apply_dhcp_changes (oracle : Oracle) (tempPath confPath : Text)
    (content : Text) (log : List DhcpChange) : DhcpApplyOut :=
  let newContent := dhcp_fold_changes content log
  let cp := run_with_sudo oracle (dhcpCpCmd tempPath confPath)
  if cp.1 then
    { success := true, message := ("OK".toList), original := content,
      newText := newContent, log := [],
      sudoCalls := [dhcpCpCmd tempPath confPath, dhcpReloadCmd] }
  else
    { success := false, message := cp.2.2, original := content,
      newText := newContent, log := log,
      sudoCalls := [dhcpCpCmd tempPath confPath] }

/-! ### DNS zone reader (`parse_zone_records`, lines 351-412)

The record extraction runs one `finditer` per record type, so the claims
about A and AAAA records only need those two patterns.  Both use
MULTILINE `^`.
-/

structure ZoneRec where
  name : Text
  rtype : Text
  value : Text
  deriving DecidableEq, Repr

/-- The A-record pattern `^(\S+)\s+(?:\d+\s+)?(?:IN\s+)?A\s+([\d.]+)`
(line 356). -/
def zoneAK : K :=
  goGroup (goClassPlus (fun c => !pySpace c))
    (goClassPlus pySpace
      (goOpt (fun k => goClassPlus pyDigit (goClassPlus pySpace k))
        (goOpt (fun k => goLit ("IN".toList) (goClassPlus pySpace k))
          (goLit ['A'] (goClassPlus pySpace (goGroup (goClassPlus digitDot) kEnd))))))

/-- The AAAA-record pattern `^(\S+)\s+(?:\d+\s+)?(?:IN\s+)?AAAA\s+(\S+)`
(line 364). -/
def zoneAAAAK : K :=
  goGroup (goClassPlus (fun c => !pySpace c))
    (goClassPlus pySpace
      (goOpt (fun k => goClassPlus pyDigit (goClassPlus pySpace k))
        (goOpt (fun k => goLit ("IN".toList) (goClassPlus pySpace k))
          (goLit ("AAAA".toList)
            (goClassPlus pySpace (goGroup (goClassPlus (fun c => !pySpace c)) kEnd))))))

/-- The A-record pass of `parse_zone_records` (lines 356-361). -/
def zone_A_records (content : Text) : List ZoneRec :=
  (reFindAll (bolAnchor zoneAK) none content).filterMap
    (fun caps =>
      match caps with
      | [n, v] => some { name := n, rtype := ("A".toList), value := v }
      | _ => none)

/-- The AAAA-record pass of `parse_zone_records` (lines 364-369). -/
def zone_AAAA_records (content : Text) : List ZoneRec :=
  (reFindAll (bolAnchor zoneAAAAK) none content).filterMap
    (fun caps =>
      match caps with
      | [n, v] => some { name := n, rtype := ("AAAA".toList), value := v }
      | _ => none)

/-! ### DNS apply engine (`apply_dns_changes`, lines 479-547) -/

/-- The delete pattern `^NAME\s+.*TYPE\s+.*$` (line 506), MULTILINE.
`record["name"]` goes through `re.escape` (literal); the type string is
interpolated raw, but the staged types (`A`, `AAAA`, ...) contain no
regex metacharacters, so a literal match is faithful. -/
def dnsDeleteK (name rtype : Text) : K :=
  goLit name
    (goClassPlus pySpace
      (goDotStar
        (goLit rtype (goClassPlus pySpace (goDotStar (goEol kEnd))))))

/-- The edit pattern `^(NAME\s+(?:\d+\s+)?(?:IN\s+)?TYPE\s+).*$`
(line 511), MULTILINE; replacement `\g<1>VALUE`. -/
def dnsEditK (name rtype : Text) : K :=
  goGroup
    (fun k =>
      goLit name
        (goClassPlus pySpace
          (goOpt (fun k2 => goClassPlus pyDigit (goClassPlus pySpace k2))
            (goOpt (fun k2 => goLit ("IN".toList) (goClassPlus pySpace k2))
              (goLit rtype (goClassPlus pySpace k))))))
    (goDotStar (goEol kEnd))

/-- The record line appended by an `add` (line 517).  Adds and edits
staged by the API always carry a value, so `getD` is never exercised. -/
def dnsAddLine (ch : DnsChange) : Text :=
  ch.name ++ '\t' :: ("IN".toList) ++ '\t' :: ch.rtype ++ '\t' :: ch.value.getD []
    ++ ['\n']

/-- One iteration of the per-zone change loop (lines 500-518). -/
def applyDnsChange (content : Text) (ch : DnsChange) : Text :=
  match ch.action with
  | .delete =>
    reSub (bolAnchor (dnsDeleteK ch.name ch.rtype)) (fun _ => []) none content
  | .edit =>
    reSub (bolAnchor (dnsEditK ch.name ch.rtype))
      (fun caps =>
        expandRepl caps (('\\' :: 'g' :: '<' :: '1' :: '>' :: []) ++ ch.value.getD []))
      none content
  | .add => pyRstrip content ++ '\n' :: dnsAddLine ch

/-- The serial pattern `(\d{10})\s*;\s*Serial` (line 522). -/
def serialK : K :=
  goGroup (fun k => goRepClass pyDigit 10 k)
    (goClassStar pySpace
      (goLit [';'] (goClassStar pySpace (goLit ("Serial".toList) kEnd))))

/-- Line 521-522: rewrite the serial token; `serial` stands for
`datetime.now().strftime('%Y%m%d%H')`. -/
def updateSerial (serial : Text) (content : Text) : Text :=
  reSub (noAnchor serialK)
    (fun caps => expandRepl caps (serial ++ ("  ; Serial".toList))) none content

/-- All changes of one zone folded over its file text, then the serial
rewrite (lines 500-522). -/
def dns_fold_zone (serial : Text) (content : Text) (changes : List DnsChange) : Text :=
  updateSerial serial (changes.foldl applyDnsChange content)

/-- The `defaultdict` grouping of lines 487-489 visits zones in first-
appearance order. -/
def zoneOrder (changes : List DnsChange) : List Text :=
  changes.foldl (fun acc c => if acc.contains c.zone then acc else acc ++ [c.zone]) []

def zoneChanges (changes : List DnsChange) (z : Text) : List DnsChange :=
  changes.filter (fun c => c.zone = z)

structure ZoneResult where
  zone : Text
  ok : Bool
  error : Option Text
  deriving DecidableEq, Repr

def isOkResult (r : ZoneResult) : Bool := r.ok

structure DnsApplyOut where
  results : List ZoneResult
  files : List (Text × Text)
  log : List DnsChange
  sudoCalls : List (List Text)
  deriving Repr

def lookupZone (files : List (Text × Text)) (z : Text) : Option Text :=
  (files.find? (fun p => p.1 = z)).map (fun p => p.2)

def setZone (files : List (Text × Text)) (z : Text) (t : Text) : List (Text × Text) :=
  files.map (fun p => if p.1 = z then (p.1, t) else p)

def dnsCpCmd (tmpPath zonePath : Text → Text) (z : Text) : List Text :=
  [("cp".toList), tmpPath z, zonePath z]

def dnsChownCmd (zonePath : Text → Text) (z : Text) : List Text :=
  [("chown".toList), ("bind:bind".toList), zonePath z]

def dnsReloadCmd : List Text :=
  [("systemctl".toList), ("reload".toList), ("bind9".toList)]

/-- The per-zone body of `apply_dns_changes` (lines 491-539): read the
zone file, fold its changes, rewrite the serial, privileged copy (then
chown) — or record a failure.  A missing zone file models the `open`
exception caught at lines 538-539. -/
def dnsZoneStep (oracle : Oracle) (tmpPath zonePath : Text → Text) (serial : Text)
    (changes : List DnsChange)
    (acc : List ZoneResult × List (Text × Text) × List (List Text)) (z : Text) :
    List ZoneResult × List (Text × Text) × List (List Text) :=
  let (results, fs, calls) := acc
  match lookupZone fs z with
  | none =>
    (results ++ [{ zone := z, ok := false, error := some ("read error".toList) }],
     fs, calls)
  | some content =>
    let newContent := dns_fold_zone serial content (zoneChanges changes z)
    let cp := run_with_sudo oracle (dnsCpCmd tmpPath zonePath z)
    if cp.1 then
      (results ++ [{ zone := z, ok := true, error := none }],
       setZone fs z newContent,
       calls ++ [dnsCpCmd tmpPath zonePath z, dnsChownCmd zonePath z])
    else
      (results ++ [{ zone := z, ok := false, error := some cp.2.2 }],
       fs, calls ++ [dnsCpCmd tmpPath zonePath z])

/-- `apply_dns_changes` (lines 479-547): process zones in grouping
order; if any zone succeeded, reload BIND and clear the whole DNS
family, otherwise leave the log untouched. -/
def apply_dns_changes (oracle : Oracle) (tmpPath zonePath : Text → Text)
    (serial : Text) (files : List (Text × Text)) (log : List DnsChange) :
    DnsApplyOut :=
  let step := dnsZoneStep oracle tmpPath zonePath serial log
  let out := (zoneOrder log).foldl step ([], files, [])
  if out.1.any isOkResult then
    { results := out.1, files := out.2.1, log := [],
      sudoCalls := out.2.2 ++ [dnsReloadCmd] }
  else
    { results := out.1, files := out.2.1, log := log, sudoCalls := out.2.2 }

/-! ### The apply route (`api_apply_changes`, lines 1021-1043) -/

structure SysState where
  dhcpText : Text
  zoneFiles : List (Text × Text)
  pendDhcp : List DhcpChange
  pendDns : List DnsChange
  deriving Repr

structure ApiApplyOut where
  dhcpResult : Option (Bool × Text)
  dnsResults : Option (List ZoneResult)
  state : SysState
  sudoCalls : List (List Text)
  deriving Repr

/-- `api_apply_changes` (lines 1021-1043): runs the DHCP apply only when
the DHCP family is non-empty and the DNS apply only when the DNS family
is non-empty.  The modeled on-disk DHCP text is replaced only when the
privileged copy succeeded. -/
def api_apply_changes (oracle : Oracle) (tempPath confPath : Text)
    (tmpPath zonePath : Text → Text) (serial : Text) (st : SysState) :
    ApiApplyOut :=
  let hasDhcp := decide (st.pendDhcp.length > 0)
  let hasDns := decide (st.pendDns.length > 0)
  let step1 :=
    if hasDhcp then
      let r := apply_dhcp_changes oracle tempPath confPath st.dhcpText st.pendDhcp
      (some (r.success, r.message),
       { st with dhcpText := if r.success then r.newText else st.dhcpText,
                 pendDhcp := r.log },
       r.sudoCalls)
    else (none, st, ([] : List (List Text)))
  let step2 :=
    if hasDns then
      let r := apply_dns_changes oracle tmpPath zonePath serial
                 step1.2.1.zoneFiles step1.2.1.pendDns
      (some r.results,
       { step1.2.1 with zoneFiles := r.files, pendDns := r.log },
       r.sudoCalls)
    else (none, step1.2.1, ([] : List (List Text)))
  { dhcpResult := step1.1, dnsResults := step2.1, state := step2.2.1,
    sudoCalls := step1.2.2 ++ step2.2.2 }

end NetAdmin

namespace NetAdmin

/-! ### Claim theorems about the staging layer -/

/-- The change staged by `edit_dhcp_host`. -/
def editStaged (hostname : Text) (mac ip : Option Text) (ts : Text) : DhcpChange :=
  { action := .edit, hostname := hostname, mac := mac, ip := ip, ts := ts }

/-- The change staged by `delete_dhcp_host`. -/
def deleteStaged (hostname : Text) (ts : Text) : DhcpChange :=
  { action := .delete, hostname := hostname, mac := none, ip := none, ts := ts }

/-- The change staged by `add_dhcp_host`. -/
def addStaged (hostname mac ip : Text) (ts : Text) : DhcpChange :=
  { action := .add, hostname := hostname, mac := some mac, ip := some ip, ts := ts }

/-! ### Fixtures for witnesses and counterexamples -/

def oracleOk : Oracle := fun _ => (true, [], [])

def oracleFail : Oracle := fun _ => (false, [], [])

def emptyState : SysState :=
  { dhcpText := [], zoneFiles := [], pendDhcp := [], pendDns := [] }

/-- Substring test (used to state counterexamples). -/
def hasSeq (pat : Text) : Text → Bool
  | [] => pat.isEmpty
  | c :: cs => pat.isPrefixOf (c :: cs) || hasSeq pat cs

def zoneAlpha : Text := ("alpha".toList)

def zoneBeta : Text := ("beta".toList)

def alphaText : Text := ("one\tIN\tA\t10.0.0.1\n").toList

def betaText : Text := ("two\tIN\tA\t10.0.0.2\n").toList

def mixedFiles : List (Text × Text) := [(zoneAlpha, alphaText), (zoneBeta, betaText)]

def alphaDelete : DnsChange :=
  { action := .delete, zone := zoneAlpha, name := ("one".toList),
    rtype := ("A".toList), value := none, ts := [] }

def betaAdd : DnsChange :=
  { action := .add, zone := zoneBeta, name := ("web".toList),
    rtype := ("A".toList), value := some ("10.0.0.9".toList), ts := [] }

def mixedLog : List DnsChange := [alphaDelete, betaAdd]

/-- Copies into zone `alpha` fail (their third argument is the `alpha`
path), everything else succeeds. -/
def mixedOracle : Oracle := fun cmd => (decide ((cmd.get? 2).getD [] ≠ zoneAlpha), [], [])

def okFiles : List (Text × Text) := [(zoneBeta, betaText)]

def okLog : List DnsChange := [betaAdd]

/-- A DHCP text whose `nas` block has both a `hardware ethernet` and a
`fixed-address` line, followed by an unrelated host block. -/
def c7Text : Text :=
  ("host nas \x7b\n    hardware ethernet aa:bb:cc:dd:ee:ff;\n    fixed-address 10.0.0.5;\n\x7d\nhost other \x7b\n    hardware ethernet 11:22:33:44:55:66;\n    fixed-address 10.0.0.7;\n\x7d\n").toList

/-- An edit for `nas` whose payload carries only a MAC (no IP). -/
def c7Edit : DhcpChange :=
  { action := .edit, hostname := ("nas".toList),
    mac := some ("11:11:11:11:11:11".toList), ip := none, ts := [] }

/-- What the replay actually produces for `c7Edit`: the whole block body
is rebuilt from the payload, so the old `fixed-address` line is gone. -/
def c7Result : Text :=
  ("host nas \x7b\n    hardware ethernet 11:11:11:11:11:11;\n\x7d\nhost other \x7b\n    hardware ethernet 11:22:33:44:55:66;\n    fixed-address 10.0.0.7;\n\x7d\n").toList

/-! ### Fixtures and well-formedness predicates for the round-trip claim -/

/-- The constant hostname of the round-trip claim. -/
def nasT : Text := ("nas".toList)

structure HostEntry where
  name : Text
  mac : Text
  ip : Text
  deriving DecidableEq, Repr

/-- One well-formed `host` block, in the claim's own layout:
`host N \x7b hardware ethernet M; fixed-address I; \x7d` plus newline. -/
def renderHostBlock (e : HostEntry) : Text :=
  ("host ".toList) ++ e.name ++ (" \x7b hardware ethernet ".toList) ++ e.mac
    ++ ("; fixed-address ".toList) ++ e.ip ++ ("; \x7d\n".toList)

def renderHostBlocks (l : List HostEntry) : Text :=
  match l with
  | [] => []
  | e :: es => renderHostBlock e ++ renderHostBlocks es

/-- A hostname: non-empty, no whitespace, no braces.  (Anything the
`host\s+(\S+)\s*\{` pattern can read back.) -/
def nameOk (s : Text) : Bool :=
  !s.isEmpty && s.all (fun c => !pySpace c && c ≠ '\x7b' && c ≠ '\x7d')

/-- The characters of a MAC address as the spec mandates it: lowercase
colon-separated hex. -/
def hexColonChars : Text := ("0123456789abcdef:".toList)

/-- A MAC address: non-empty, lowercase colon-separated hex. -/
def macOk (s : Text) : Bool :=
  !s.isEmpty && s.all (fun c => decide (c ∈ hexColonChars))

def ipChars : Text := ("0123456789.".toList)

/-- An IPv4 dotted-quad body. -/
def ipOk (s : Text) : Bool :=
  !s.isEmpty && s.all (fun c => decide (c ∈ ipChars))

def entryOk (e : HostEntry) : Bool :=
  nameOk e.name && macOk e.mac && ipOk e.ip

/-- The text between the braces of a rendered block (what group 2 of
the host pattern captures). -/
def interiorOf (e : HostEntry) : Text :=
  (" hardware ethernet ".toList) ++ e.mac ++ ("; fixed-address ".toList)
    ++ e.ip ++ ("; ".toList)

/-- The host record `parse_dhcp_config` rebuilds from a rendered block.
(The `\S+` after `fixed-address` captures the trailing semicolon, which
`rstrip(';')` removes again.) -/
def hostRecOf (e : HostEntry) : HostRec :=
  { name := e.name, mac := pyLower e.mac, address := some (pyRstripSemi (e.ip ++ [';'])) }

/-- The claim's concrete `nas` block data. -/
def nasEntry : HostEntry :=
  { name := nasT, mac := ("aa:bb:cc:dd:ee:ff".toList), ip := ("10.0.0.5".toList) }

/-- A neighbouring host, for exercising the delete round trip. -/
def printerEntry : HostEntry :=
  { name := ("printer".toList), mac := ("00:11:22:33:44:55".toList),
    ip := ("10.0.0.7".toList) }

/-! ### Fixtures for the DNS claims -/

/-- Joins lines with newlines (no trailing newline). -/
def joinLines : List Text → Text
  | [] => []
  | [l] => l
  | l :: ls => l ++ '\n' :: joinLines ls

/-- Joins lines with a trailing newline after each (zone files end with
a newline). -/
def concatLines : List Text → Text
  | [] => []
  | l :: ls => l ++ '\n' :: concatLines ls

/-- A realistic zone file for `example.com`, with a serial line and no
record named `web`. -/
def c9Zone : Text :=
  ("$TTL 86400\n@   IN  SOA ns1.example.com. admin.example.com. (\n            2026010101    ; Serial\n            3600        ; Refresh\n            1800        ; Retry\n        )\n    IN  NS  ns1.example.com.\nns1\tIN\tA\t10.0.0.2\nmail\tIN\tMX\t10 mx.example.com.\n").toList

def c9ZoneName : Text := ("example.com".toList)

def c9Files : List (Text × Text) := [(c9ZoneName, c9Zone)]

/-- The two staged changes of the C9 scenario, in order: an add of
`web A 10.0.0.9` followed by an edit to `10.0.0.10`. -/
def c9Log : List DnsChange :=
  edit_dns_record c9ZoneName ("web".toList) ("A".toList) ("10.0.0.10".toList) []
    (add_dns_record c9ZoneName ("web".toList) ("A".toList) ("10.0.0.9".toList) [] [])

def c9Serial : Text := ("2026101211".toList)

/-- A zone text holding an A and an AAAA record for `web` plus records
of other names (the C10 instance). -/
def c10Zone : Text :=
  ("ns1\tIN\tA\t10.0.0.2\nweb\tIN\tA\t10.0.0.9\nweb\tIN\tAAAA\tfe80::1\nmail\tIN\tMX\t10 mx.example.com.\n").toList

/-- The staged `delete (web, A)` of the C10 instance. -/
def c10Delete : DnsChange :=
  { action := .delete, zone := [], name := ("web".toList), rtype := ("A".toList),
    value := none, ts := [] }

end NetAdmin

/-- **C1.** For every hostname `H` and every prior log state, staging an
edit or a delete for `H` first removes every existing pending DHCP
change whose hostname is `H` and then appends the new change; hence
afterwards the pending changes with hostname `H` are exactly the one
just staged (at most one exists, and it is the staged one), while the
entries for other hostnames are kept unchanged. -/
theorem dhcp_edit_delete_dedup (hostname : NetAdmin.Text)
    (mac ip : Option NetAdmin.Text) (ts : NetAdmin.Text)
    (log : List NetAdmin.DhcpChange) :
    (NetAdmin.edit_dhcp_host hostname mac ip ts log =
       (log.filter (fun c => c.hostname ≠ hostname)) ++
         [NetAdmin.editStaged hostname mac ip ts] ∧
     (NetAdmin.edit_dhcp_host hostname mac ip ts log).filter
         (fun c => c.hostname = hostname) =
       [NetAdmin.editStaged hostname mac ip ts]) ∧
    (NetAdmin.delete_dhcp_host hostname ts log =
       (log.filter (fun c => c.hostname ≠ hostname)) ++
         [NetAdmin.deleteStaged hostname ts] ∧
     (NetAdmin.delete_dhcp_host hostname ts log).filter
         (fun c => c.hostname = hostname) =
       [NetAdmin.deleteStaged hostname ts]) := by
  refine ⟨⟨rfl, ?_⟩, ⟨rfl, ?_⟩⟩ <;>
  · simp only [NetAdmin.edit_dhcp_host, NetAdmin.delete_dhcp_host,
      List.filter_append, List.filter_filter]
    rw [List.filter_eq_nil_iff.mpr, List.nil_append]
    · simp [NetAdmin.editStaged, NetAdmin.deleteStaged]
    · intro c _
      simp only [decide_eq_true_eq, Bool.and_eq_true, decide_not, Bool.not_eq_true']
      rintro ⟨h1, h2⟩
      simp [h1] at h2

/-- **C2.** Staging an add for hostname `H` appends the new pending DHCP
change without removing anything: every existing entry (in particular
every earlier entry for `H` itself) survives, in its original order, and
the staged add is the final element. -/
theorem dhcp_add_no_evict (hostname mac ip ts : NetAdmin.Text)
    (log : List NetAdmin.DhcpChange) :
    NetAdmin.add_dhcp_host hostname mac ip ts log =
      log ++ [NetAdmin.addStaged hostname mac ip ts] ∧
    (NetAdmin.add_dhcp_host hostname mac ip ts log).filter
        (fun c => c.hostname = hostname) =
      (log.filter (fun c => c.hostname = hostname)) ++
        [NetAdmin.addStaged hostname mac ip ts] := by
  refine ⟨rfl, ?_⟩
  simp [NetAdmin.add_dhcp_host, NetAdmin.addStaged, List.filter_append]

/-- **C3.** When both pending families are empty, invoking the apply
route (`api_apply_changes`) leaves every modeled configuration text
unchanged — indeed the whole state unchanged — and issues no privileged
command at all: the `has_dhcp` / `has_dns` guards skip both apply
engines. -/
theorem apply_empty_log_noop (oracle : NetAdmin.Oracle)
    (tempPath confPath : NetAdmin.Text)
    (tmpPath zonePath : NetAdmin.Text → NetAdmin.Text) (serial : NetAdmin.Text)
    (st : NetAdmin.SysState)
    (hd : st.pendDhcp = []) (hn : st.pendDns = []) :
    (NetAdmin.api_apply_changes oracle tempPath confPath tmpPath zonePath serial
        st).state = st ∧
    (NetAdmin.api_apply_changes oracle tempPath confPath tmpPath zonePath serial
        st).state.dhcpText = st.dhcpText ∧
    (NetAdmin.api_apply_changes oracle tempPath confPath tmpPath zonePath serial
        st).state.zoneFiles = st.zoneFiles ∧
    (NetAdmin.api_apply_changes oracle tempPath confPath tmpPath zonePath serial
        st).sudoCalls = [] := by
  simp [NetAdmin.api_apply_changes, hd, hn]

/-- Witness for C3 at a concrete empty state. -/
theorem apply_empty_log_noop_witness :
    (NetAdmin.api_apply_changes NetAdmin.oracleOk [] [] id id []
        NetAdmin.emptyState).state = NetAdmin.emptyState ∧
    (NetAdmin.api_apply_changes NetAdmin.oracleOk [] [] id id []
        NetAdmin.emptyState).state.dhcpText = NetAdmin.emptyState.dhcpText ∧
    (NetAdmin.api_apply_changes NetAdmin.oracleOk [] [] id id []
        NetAdmin.emptyState).state.zoneFiles = NetAdmin.emptyState.zoneFiles ∧
    (NetAdmin.api_apply_changes NetAdmin.oracleOk [] [] id id []
        NetAdmin.emptyState).sudoCalls = [] :=
  apply_empty_log_noop NetAdmin.oracleOk [] [] id id [] NetAdmin.emptyState rfl rfl

/-- **C4.** In a run of `apply_dhcp_changes`, the reported success bit
is exactly the privileged copy's outcome, and the pending DHCP family is
cleared when the copy succeeded and left untouched when it failed — so
every change staged before a failed apply is still pending afterwards,
and a non-empty log stays non-empty. -/
theorem dhcp_cleared_iff_copy_ok (oracle : NetAdmin.Oracle)
    (tempPath confPath content : NetAdmin.Text)
    (log : List NetAdmin.DhcpChange) :
    (NetAdmin.apply_dhcp_changes oracle tempPath confPath content log).success =
      (NetAdmin.run_with_sudo oracle (NetAdmin.dhcpCpCmd tempPath confPath)).1 ∧
    (NetAdmin.apply_dhcp_changes oracle tempPath confPath content log).log =
      (if (NetAdmin.apply_dhcp_changes oracle tempPath confPath content log).success
       then [] else log) ∧
    ((NetAdmin.apply_dhcp_changes oracle tempPath confPath content log).success = false →
      (NetAdmin.apply_dhcp_changes oracle tempPath confPath content log).log = log ∧
      (log ≠ [] →
        (NetAdmin.apply_dhcp_changes oracle tempPath confPath content log).log ≠ [])) := by
  by_cases h : (oracle (NetAdmin.dhcpCpCmd tempPath confPath)).1 <;>
    simp [NetAdmin.apply_dhcp_changes, NetAdmin.run_with_sudo, h]

/-- Witness for C4: a failed copy leaves the single staged delete
pending. -/
theorem dhcp_cleared_iff_copy_ok_witness :
    (NetAdmin.apply_dhcp_changes NetAdmin.oracleFail [] [] []
        [NetAdmin.deleteStaged [] []]).log = [NetAdmin.deleteStaged [] []] ∧
    (NetAdmin.apply_dhcp_changes NetAdmin.oracleFail [] [] []
        [NetAdmin.deleteStaged [] []]).log ≠ [] :=
  ⟨((dhcp_cleared_iff_copy_ok NetAdmin.oracleFail [] [] []
      [NetAdmin.deleteStaged [] []]).2.2 rfl).1,
   ((dhcp_cleared_iff_copy_ok NetAdmin.oracleFail [] [] []
      [NetAdmin.deleteStaged [] []]).2.2 rfl).2 (by decide)⟩

/-- **C5.** After a DNS apply pass, the pending DNS family is cleared
precisely when at least one zone's commit succeeded — in that case the
whole family goes, including changes of zones that failed in the same
pass — and is left exactly as it was when no zone succeeded. -/
theorem dns_cleared_iff_any_zone_ok (oracle : NetAdmin.Oracle)
    (tmpPath zonePath : NetAdmin.Text → NetAdmin.Text) (serial : NetAdmin.Text)
    (files : List (NetAdmin.Text × NetAdmin.Text)) (log : List NetAdmin.DnsChange) :
    (NetAdmin.apply_dns_changes oracle tmpPath zonePath serial files log).log =
      (if (NetAdmin.apply_dns_changes oracle tmpPath zonePath serial files
            log).results.any NetAdmin.isOkResult
       then [] else log) ∧
    ((NetAdmin.apply_dns_changes oracle tmpPath zonePath serial files
        log).results.any NetAdmin.isOkResult = true →
      (NetAdmin.apply_dns_changes oracle tmpPath zonePath serial files log).log = []) ∧
    ((NetAdmin.apply_dns_changes oracle tmpPath zonePath serial files
        log).results.any NetAdmin.isOkResult = false →
      (NetAdmin.apply_dns_changes oracle tmpPath zonePath serial files log).log = log) := by
  by_cases h : (((NetAdmin.zoneOrder log).foldl
      (NetAdmin.dnsZoneStep oracle tmpPath zonePath serial log)
      ([], files, [])).1.any NetAdmin.isOkResult) <;>
    simp [NetAdmin.apply_dns_changes, h]

/-- **C6 counterexample.** A pass over two zones in which `alpha` fails
and `beta` succeeds: zone `alpha` had a pending change, yet afterwards
the pending DNS family is empty — the failed zone does *not* retain its
pending changes, contrary to the claim. -/
theorem dns_failed_zone_retains_cex :
    (NetAdmin.apply_dns_changes NetAdmin.mixedOracle id id [] NetAdmin.mixedFiles
        NetAdmin.mixedLog).results.map NetAdmin.isOkResult = [false, true] ∧
    NetAdmin.zoneChanges NetAdmin.mixedLog NetAdmin.zoneAlpha = [NetAdmin.alphaDelete] ∧
    (NetAdmin.apply_dns_changes NetAdmin.mixedOracle id id [] NetAdmin.mixedFiles
        NetAdmin.mixedLog).log = [] := by
  decide

/-- **C6 amended.** After a DNS apply pass in which some zones fail and
at least one succeeds, *no* pending DNS change remains: the failed
zones' changes are dropped together with everything else. -/
theorem dns_mixed_pass_clears_all (oracle : NetAdmin.Oracle)
    (tmpPath zonePath : NetAdmin.Text → NetAdmin.Text) (serial : NetAdmin.Text)
    (files : List (NetAdmin.Text × NetAdmin.Text)) (log : List NetAdmin.DnsChange)
    (hok : (NetAdmin.apply_dns_changes oracle tmpPath zonePath serial files
        log).results.any NetAdmin.isOkResult = true)
    (hfail : (NetAdmin.apply_dns_changes oracle tmpPath zonePath serial files
        log).results.any (fun r => !r.ok) = true) :
    (NetAdmin.apply_dns_changes oracle tmpPath zonePath serial files log).log = [] := by
  by_cases h : (((NetAdmin.zoneOrder log).foldl
      (NetAdmin.dnsZoneStep oracle tmpPath zonePath serial log)
      ([], files, [])).1.any NetAdmin.isOkResult) <;>
    simp [NetAdmin.apply_dns_changes, h] at hok ⊢

/-- Witness for the amended C6 at the mixed two-zone fixture. -/
theorem dns_mixed_pass_clears_all_witness :
    (NetAdmin.apply_dns_changes NetAdmin.mixedOracle id id [] NetAdmin.mixedFiles
        NetAdmin.mixedLog).log = [] :=
  dns_mixed_pass_clears_all NetAdmin.mixedOracle id id [] NetAdmin.mixedFiles
    NetAdmin.mixedLog (by decide) (by decide)

/-- Witness for C5: with the copy succeeding the family is cleared, with
it failing the family is untouched. -/
theorem dns_cleared_iff_any_zone_ok_witness :
    (NetAdmin.apply_dns_changes NetAdmin.oracleOk id id [] NetAdmin.okFiles
        NetAdmin.okLog).log = [] ∧
    (NetAdmin.apply_dns_changes NetAdmin.oracleFail id id [] NetAdmin.okFiles
        NetAdmin.okLog).log = NetAdmin.okLog :=
  ⟨(dns_cleared_iff_any_zone_ok NetAdmin.oracleOk id id [] NetAdmin.okFiles
      NetAdmin.okLog).2.1 (by decide),
   (dns_cleared_iff_any_zone_ok NetAdmin.oracleFail id id [] NetAdmin.okFiles
      NetAdmin.okLog).2.2 (by decide)⟩

/-- **C7 counterexample.** Replaying an edit for `nas` whose payload has
a MAC but no IP, on a text whose `nas` block has both lines: the result
rebuilds the block from the payload alone, so the pre-existing
`fixed-address 10.0.0.5;` line is *not* left in place — it vanishes. -/
theorem dhcp_edit_drops_absent_field_cex :
    NetAdmin.hasSeq (("fixed-address 10.0.0.5;").toList) NetAdmin.c7Text = true ∧
    NetAdmin.applyDhcpChange NetAdmin.c7Text NetAdmin.c7Edit = NetAdmin.c7Result ∧
    NetAdmin.hasSeq (("fixed-address 10.0.0.5;").toList)
      (NetAdmin.applyDhcpChange NetAdmin.c7Text NetAdmin.c7Edit) = false := by
  decide

/-! ### Generic evaluation lemmas for the matcher combinators -/

namespace NetAdmin

theorem goLit_append (l t : Text) (k : K) : goLit l k (l ++ t) = k t := by
  simp [goLit, List.isPrefixOf_iff_prefix.mpr (List.prefix_append l t), List.drop_left]

theorem goLit_none (l : Text) (k : K) (s : Text) (h : ¬ l <+: s) :
    goLit l k s = none := by
  simp [goLit, List.isPrefixOf_iff_prefix, h]

theorem goLit_head_ne (c : Char) (l : Text) (k : K) (s : Text)
    (h : s.head? ≠ some c) : goLit (c :: l) k s = none := by
  apply goLit_none
  rintro ⟨t, ht⟩
  cases s with
  | nil => simp at ht
  | cons d s' => simp_all

theorem firstSome_none {α β : Type} (f : α → Option β) (l : List α)
    (h : ∀ a ∈ l, f a = none) : firstSome f l = none := by
  induction l with
  | nil => rfl
  | cons a as ih =>
    have ha := h a (by simp)
    simp only [firstSome, ha]
    exact ih (fun b hb => h b (by simp [hb]))

theorem firstSome_cons_some {α β : Type} (f : α → Option β) (a : α) (l : List α)
    (x : β) (h : f a = some x) : firstSome f (a :: l) = some x := by
  simp [firstSome, h]

theorem mem_descToOne (i n : Nat) : i ∈ descToOne n ↔ 1 ≤ i ∧ i ≤ n := by
  induction n with
  | zero => simp [descToOne]; omega
  | succ m ih => simp [descToOne, ih]; omega

theorem mem_descToZero (i n : Nat) : i ∈ descToZero n ↔ i ≤ n := by
  simp [descToZero, mem_descToOne]; omega

theorem takeWhile_append_run (p : Char → Bool) (run t : Text)
    (h1 : run.all p) (h2 : ∀ c, t.head? = some c → p c = false) :
    (run ++ t).takeWhile p = run := by
  induction run with
  | nil =>
    cases t with
    | nil => rfl
    | cons c cs => simp [List.takeWhile, h2 c rfl]
  | cons a as ih =>
    simp only [List.all_cons, Bool.and_eq_true] at h1
    simp [List.takeWhile, h1.1, ih h1.2]

theorem goClassPlus_append (p : Char → Bool) (k : K) (run t : Text)
    (x : Text × List Text) (h0 : run ≠ []) (h1 : run.all p)
    (h2 : ∀ c, t.head? = some c → p c = false) (hk : k t = some x) :
    goClassPlus p k (run ++ t) = some x := by
  have hrun : (run ++ t).takeWhile p = run := takeWhile_append_run p run t h1 h2
  have hlen : ∃ m, run.length = m + 1 := by
    cases run with
    | nil => exact absurd rfl h0
    | cons a as => exact ⟨as.length, rfl⟩
  obtain ⟨m, hm⟩ := hlen
  simp only [goClassPlus, hrun, hm, descToOne]
  exact firstSome_cons_some _ _ _ _ (by rw [← hm, List.drop_left]; exact hk)

theorem goClassStar_append (p : Char → Bool) (k : K) (run t : Text)
    (x : Text × List Text) (h1 : run.all p)
    (h2 : ∀ c, t.head? = some c → p c = false) (hk : k t = some x) :
    goClassStar p k (run ++ t) = some x := by
  have hrun : (run ++ t).takeWhile p = run := takeWhile_append_run p run t h1 h2
  simp only [goClassStar, hrun, descToZero]
  cases hn : run.length with
  | zero =>
    have : run = [] := List.length_eq_zero.mp hn
    subst this
    simp only [descToOne, List.nil_append]
    exact firstSome_cons_some _ _ _ _ (by simpa using hk)
  | succ m =>
    simp only [descToOne, List.cons_append]
    exact firstSome_cons_some _ _ _ _ (by rw [← hn, List.drop_left]; exact hk)

theorem goClassPlus_none (p : Char → Bool) (k : K) (s : Text)
    (h : ∀ i, 1 ≤ i → i ≤ (s.takeWhile p).length → k (s.drop i) = none) :
    goClassPlus p k s = none := by
  apply firstSome_none
  intro i hi
  exact h i ((mem_descToOne i _).mp hi).1 ((mem_descToOne i _).mp hi).2

theorem goClassStar_none (p : Char → Bool) (k : K) (s : Text)
    (h : ∀ i, i ≤ (s.takeWhile p).length → k (s.drop i) = none) :
    goClassStar p k s = none := by
  apply firstSome_none
  intro i hi
  exact h i ((mem_descToZero i _).mp hi)

theorem take_append_sub (a b : Text) : (a ++ b).take ((a ++ b).length - b.length) = a := by
  have : (a ++ b).length - b.length = a.length := by simp
  rw [this, List.take_left]

/-- Characters that `pySpace` accepts, spelled out. -/
theorem pySpace_cases (c : Char) (h : pySpace c = true) :
    c = ' ' ∨ c = '\t' ∨ c = '\n' ∨ c = '\r' ∨ c = '\x0b' ∨ c = '\x0c' := by
  simp only [pySpace, Bool.or_eq_true, decide_eq_true_eq] at h
  tauto

end NetAdmin


namespace NetAdmin

theorem reSubGo_prev (m : K) (f : List Text → Text) :
    ∀ fuel (s : Text) prev prev',
      reSubGo (noAnchor m) f fuel prev s = reSubGo (noAnchor m) f fuel prev' s := by
  intro fuel
  induction fuel with
  | zero => intro s prev prev'; rfl
  | succ fu ih =>
    intro s prev prev'
    cases s with
    | nil => rfl
    | cons c cs =>
      simp only [reSubGo, noAnchor]
      cases hm : m (c :: cs) with
      | none => rfl
      | some x =>
        rcases x with ⟨rest, caps⟩
        by_cases hlt : rest.length < (c :: cs).length
        · simp only [hlt, if_true]
          exact congrArg _ (ih _ _ _)
        · simp only [hlt, if_false]

end NetAdmin

namespace NetAdmin

theorem reSubGo_through (m : K) (f : List Text → Text) :
    ∀ (a s : Text) (fuel : Nat) (prev : Option Char),
      (∀ b : Text, b <:+ a → b ≠ [] → m (b ++ s) = none) →
      reSubGo (noAnchor m) f (a.length + fuel) prev (a ++ s) =
        a ++ reSubGo (noAnchor m) f fuel prev s := by
  intro a
  induction a with
  | nil => intro s fuel prev _; simp
  | cons c a' ih =>
    intro s fuel prev h
    have hc : m (c :: (a' ++ s)) = none := by
      have := h (c :: a') (List.suffix_refl _) (by simp)
      simpa using this
    have harr : (c :: a').length + fuel = (a'.length + fuel) + 1 := by
      simp [List.length_cons]; omega
    rw [harr]
    simp only [List.cons_append]
    simp only [reSubGo, noAnchor, hc]
    rw [ih s fuel (some c)
      (fun b hb hne => h b (hb.trans (List.suffix_cons c a')) hne)]
    rw [reSubGo_prev m f fuel s (some c) prev]

end NetAdmin

namespace NetAdmin

theorem reSubGo_match_head (m : K) (f : List Text → Text) (s rest : Text)
    (caps : List Text) (fuel : Nat) (prev : Option Char)
    (hm : m s = some (rest, caps)) (hlt : rest.length < s.length) :
    reSubGo (noAnchor m) f (fuel + 1) prev s =
      f caps ++ reSubGo (noAnchor m) f fuel prev rest := by
  cases s with
  | nil => simp at hlt
  | cons c cs =>
    simp only [reSubGo, noAnchor, hm, hlt, if_true]
    exact congrArg _ (reSubGo_prev m f fuel rest _ prev)

theorem reFindAllGo_prev (m : K) :
    ∀ fuel (s : Text) prev prev',
      reFindAllGo (noAnchor m) fuel prev s = reFindAllGo (noAnchor m) fuel prev' s := by
  intro fuel
  induction fuel with
  | zero => intro s prev prev'; rfl
  | succ fu ih =>
    intro s prev prev'
    cases s with
    | nil => rfl
    | cons c cs =>
      simp only [reFindAllGo, noAnchor]
      cases hm : m (c :: cs) with
      | none => exact ih _ _ _
      | some x =>
        rcases x with ⟨rest, caps⟩
        by_cases hlt : rest.length < (c :: cs).length
        · simp only [hlt, if_true]
          exact congrArg _ (ih _ _ _)
        · simp only [hlt, if_false]

theorem reFindAllGo_through (m : K) :
    ∀ (a s : Text) (fuel : Nat) (prev : Option Char),
      (∀ b : Text, b <:+ a → b ≠ [] → m (b ++ s) = none) →
      reFindAllGo (noAnchor m) (a.length + fuel) prev (a ++ s) =
        reFindAllGo (noAnchor m) fuel prev s := by
  intro a
  induction a with
  | nil => intro s fuel prev _; simp
  | cons c a' ih =>
    intro s fuel prev h
    have hc : m (c :: (a' ++ s)) = none := by
      have := h (c :: a') (List.suffix_refl _) (by simp)
      simpa using this
    have harr : (c :: a').length + fuel = (a'.length + fuel) + 1 := by
      simp [List.length_cons]; omega
    rw [harr]
    simp only [List.cons_append]
    simp only [reFindAllGo, noAnchor, hc]
    rw [ih s fuel (some c)
      (fun b hb hne => h b (hb.trans (List.suffix_cons c a')) hne)]
    exact reFindAllGo_prev m fuel s (some c) prev

theorem reFindAllGo_match_head (m : K) (s rest : Text)
    (caps : List Text) (fuel : Nat) (prev : Option Char)
    (hm : m s = some (rest, caps)) (hlt : rest.length < s.length) :
    reFindAllGo (noAnchor m) (fuel + 1) prev s =
      caps :: reFindAllGo (noAnchor m) fuel prev rest := by
  cases s with
  | nil => simp at hlt
  | cons c cs =>
    simp only [reFindAllGo, noAnchor, hm, hlt, if_true]
    exact congrArg _ (reFindAllGo_prev m fuel rest _ prev)

theorem reSearchCaps_prev (m : K) :
    ∀ (s : Text) prev prev',
      reSearchCaps (noAnchor m) prev s = reSearchCaps (noAnchor m) prev' s := by
  intro s
  cases s <;> intro prev prev' <;> simp only [reSearchCaps, noAnchor]

theorem reSearchCaps_through (m : K) :
    ∀ (a s : Text) (prev : Option Char),
      (∀ b : Text, b <:+ a → b ≠ [] → m (b ++ s) = none) →
      reSearchCaps (noAnchor m) prev (a ++ s) = reSearchCaps (noAnchor m) prev s := by
  intro a
  induction a with
  | nil => intro s prev _; rfl
  | cons c a' ih =>
    intro s prev h
    have hc : m (c :: (a' ++ s)) = none := by
      have := h (c :: a') (List.suffix_refl _) (by simp)
      simpa using this
    simp only [List.cons_append, reSearchCaps, noAnchor, List.append_eq, hc]
    rw [ih s (some c)
      (fun b hb hne => h b (hb.trans (List.suffix_cons c a')) hne)]
    exact reSearchCaps_prev m s (some c) prev

theorem reSearchCaps_match_head (m : K) (s rest : Text) (caps : List Text)
    (prev : Option Char) (hm : m s = some (rest, caps)) :
    reSearchCaps (noAnchor m) prev s = some caps := by
  cases s with
  | nil => simp [reSearchCaps, noAnchor, hm]
  | cons c cs => simp [reSearchCaps, noAnchor, hm]

end NetAdmin

/-- **C9.** Staging `add(web, A, 10.0.0.9)` then `edit(web, A, 10.0.0.10)`
against `example.com` (a zone with no `web` A record) and applying both
in one DNS pass leaves exactly one A record named `web` in the re-read
zone text, with value `10.0.0.10`: the edit is replayed after the add
within the same pass.  The pass itself commits the zone successfully. -/
theorem dns_add_then_edit_same_pass :
    (NetAdmin.apply_dns_changes NetAdmin.oracleOk id id NetAdmin.c9Serial
        NetAdmin.c9Files NetAdmin.c9Log).results.map NetAdmin.isOkResult = [true] ∧
    ((NetAdmin.zone_A_records
        ((NetAdmin.lookupZone
            (NetAdmin.apply_dns_changes NetAdmin.oracleOk id id NetAdmin.c9Serial
              NetAdmin.c9Files NetAdmin.c9Log).files NetAdmin.c9ZoneName).getD [])).filter
        (fun r => r.name = ("web".toList))) =
      [{ name := ("web".toList), rtype := ("A".toList),
         value := ("10.0.0.10".toList) }] := by
  decide

namespace NetAdmin

theorem expandRepl_id (caps : List Text) (t : Text)
    (h : t.all (fun c => c ≠ '\\') = true) : expandRepl caps t = t := by
  induction t with
  | nil => rfl
  | cons c rest ih =>
    simp only [List.all_cons, Bool.and_eq_true, decide_eq_true_eq] at h
    rw [expandRepl.eq_def]
    simp only [if_neg h.1, List.cons.injEq, true_and]
    exact ih h.2

end NetAdmin

namespace NetAdmin

theorem reSubGo_all_fail (m : K) (f : List Text → Text) :
    ∀ (fuel : Nat) (s : Text) (prev : Option Char),
      (∀ b : Text, b <:+ s → m b = none) →
      reSubGo (noAnchor m) f fuel prev s = s := by
  intro fuel
  induction fuel with
  | zero => intro s prev _; rfl
  | succ fu ih =>
    intro s prev h
    cases s with
    | nil =>
      rw [reSubGo.eq_def]
      simp [noAnchor, h [] (List.suffix_refl _)]
    | cons c cs =>
      simp only [reSubGo, noAnchor, h (c :: cs) (List.suffix_refl _)]
      exact congrArg _ (ih cs (some c)
        (fun b hb => h b (hb.trans (List.suffix_cons c cs))))

theorem nameOk_ne (s : Text) (h : nameOk s = true) : s ≠ [] := by
  intro hs
  subst hs
  simp [nameOk] at h

theorem nameOk_head (s : Text) (h : nameOk s = true) :
    ∀ c, s.head? = some c → pySpace c = false := by
  intro c hc
  cases s with
  | nil => simp at hc
  | cons a as =>
    simp only [List.head?_cons, Option.some.injEq] at hc
    simp only [nameOk, List.all_cons, Bool.and_eq_true, Bool.not_eq_true'] at h
    rw [← hc]
    exact h.2.1.1.1

/-- Evaluation of the common prefix `host\s+HOSTNAME\s*\{` of the
edit-shaped pattern on a text starting with that exact shape. -/
theorem editPre_eval (hostname : Text) (hname : nameOk hostname = true)
    (u : Text) (k : K) (x : Text × List Text) (hk : k u = some x) :
    (goLit ("host".toList)
      (goClassPlus pySpace
        (goLit hostname (goClassStar pySpace (goLit ['\x7b'] k)))))
      (("host ".toList) ++ hostname ++ (" \x7b".toList) ++ u) = some x := by
  have e1 : ("host ".toList) ++ hostname ++ (" \x7b".toList) ++ u =
      ("host".toList) ++ ([' '] ++ (hostname ++ ([' '] ++ ('\x7b' :: u)))) := by
    simp
  have hlast : goLit ['\x7b'] k ('\x7b' :: u) = some x := by
    rw [show ('\x7b' :: u) = ['\x7b'] ++ u by simp, goLit_append]
    exact hk
  have hstar : goClassStar pySpace (goLit ['\x7b'] k) ([' '] ++ ('\x7b' :: u)) = some x := by
    refine goClassStar_append pySpace _ [' '] ('\x7b' :: u) x (by decide) ?_ hlast
    intro d hd
    simp only [List.head?_cons, Option.some.injEq] at hd
    rw [← hd]
    decide
  have hlit2 : goLit hostname (goClassStar pySpace (goLit ['\x7b'] k))
      (hostname ++ ([' '] ++ ('\x7b' :: u))) = some x := by
    rw [goLit_append]
    exact hstar
  have hplus : goClassPlus pySpace (goLit hostname (goClassStar pySpace (goLit ['\x7b'] k)))
      ([' '] ++ (hostname ++ ([' '] ++ ('\x7b' :: u)))) = some x := by
    refine goClassPlus_append pySpace _ [' '] _ x (by simp) (by decide) ?_ hlit2
    intro d hd
    cases hc : hostname with
    | nil => exact absurd hc (nameOk_ne hostname hname)
    | cons a as =>
      rw [hc] at hd
      simp only [List.cons_append, List.head?_cons, Option.some.injEq] at hd
      rw [← hd]
      exact nameOk_head (a :: as) (hc ▸ hname) a rfl
  rw [e1, goLit_append]
  exact hplus

end NetAdmin

namespace NetAdmin

theorem dhcpEditK_eval (hostname interior suf : Text)
    (hname : nameOk hostname = true) (hint_ne : interior ≠ [])
    (hint : interior.all (fun c => c ≠ '\x7d') = true) :
    dhcpEditK hostname
      (("host ".toList) ++ hostname ++ (" \x7b".toList) ++ (interior ++ '\x7d' :: suf)) =
      some (suf, [("host ".toList) ++ hostname ++ (" \x7b".toList), interior, ['\x7d']]) := by
  have h3 : goGroup (fun k => goLit ['\x7d'] k) kEnd ('\x7d' :: suf) = some (suf, [['\x7d']]) := by
    simp only [goGroup]
    rw [show ('\x7d' :: suf) = ['\x7d'] ++ suf by simp, goLit_append]
    simp [kEnd, take_append_sub ['\x7d'] suf]
  have h2 : goGroup (goClassPlus (fun c => c ≠ '\x7d'))
      (goGroup (fun k => goLit ['\x7d'] k) kEnd) (interior ++ '\x7d' :: suf) =
      some (suf, [interior, ['\x7d']]) := by
    simp only [goGroup] at h3 ⊢
    refine goClassPlus_append _ _ interior ('\x7d' :: suf) _ hint_ne hint ?_ ?_
    · intro d hd
      simp only [List.head?_cons, Option.some.injEq] at hd
      rw [← hd]
      decide
    · rw [h3]
      simp [take_append_sub interior ('\x7d' :: suf)]
  show (goGroup _ _) _ = _
  simp only [goGroup] at h2 ⊢
  refine editPre_eval hostname hname (interior ++ '\x7d' :: suf) _ _ ?_
  rw [h2]
  simp only [Option.map]
  congr 2
  have e2 : ("host ".toList) ++ hostname ++ (" \x7b".toList) ++ (interior ++ '\x7d' :: suf) =
      (("host ".toList) ++ hostname ++ (" \x7b".toList)) ++ (interior ++ '\x7d' :: suf) := by
    simp
  rw [e2, take_append_sub]

end NetAdmin

namespace NetAdmin

theorem dhcpEditNewBlock_no_backslash (hostname : Text)
    (mac ip : Option Text) (ts : Text)
    (hnb : hostname.all (fun c => c ≠ '\\') = true)
    (hmacnb : (mac.getD []).all (fun c => c ≠ '\\') = true)
    (hipnb : (ip.getD []).all (fun c => c ≠ '\\') = true) :
    (dhcpEditNewBlock (("host ".toList) ++ hostname ++ (" \x7b".toList)) ['\x7d']
      { action := .edit, hostname := hostname, mac := mac, ip := ip, ts := ts }).all
      (fun c => c ≠ '\\') = true := by
  unfold dhcpEditNewBlock
  rcases Bool.eq_false_or_eq_true (optTruthy mac) with hm | hm <;>
    rcases Bool.eq_false_or_eq_true (optTruthy ip) with hi | hi <;>
    simp only [hm, hi, if_true, if_false, Bool.false_eq_true] <;>
    simp only [List.all_append, List.all_cons, Bool.and_eq_true, List.append_nil,
      List.nil_append]
  all_goals repeat' apply And.intro
  all_goals first
    | exact hnb
    | exact hmacnb
    | exact hipnb
    | decide

end NetAdmin

/-- **C7 amended.** When the replay of an edit for hostname `H` finds
`H`'s block, it rebuilds the block as the opening `host H \x7b` group
followed by exactly one line per payload-present field and the closing
brace: the previous block body is discarded wholesale, so a field absent
from the payload has no line in the result (nothing is preserved), while
the block's opening and closing braces survive. -/
theorem dhcp_edit_payload_only (hostname interior suf : NetAdmin.Text)
    (mac ip : Option NetAdmin.Text) (ts : NetAdmin.Text)
    (hname : NetAdmin.nameOk hostname = true)
    (hnb : hostname.all (fun c => c ≠ '\\') = true)
    (hint_ne : interior ≠ [])
    (hint : interior.all (fun c => c ≠ '\x7d') = true)
    (hmacnb : ((mac.getD []).all (fun c => c ≠ '\\')) = true)
    (hipnb : ((ip.getD []).all (fun c => c ≠ '\\')) = true)
    (hsuf : ∀ b : NetAdmin.Text, b <:+ suf → NetAdmin.dhcpEditK hostname b = none) :
    NetAdmin.applyDhcpChange
      (("host ".toList) ++ hostname ++ (" \x7b".toList) ++ (interior ++ '\x7d' :: suf))
      { action := .edit, hostname := hostname, mac := mac, ip := ip, ts := ts } =
    (("host ".toList) ++ hostname ++ (" \x7b".toList))
      ++ (if NetAdmin.optTruthy mac
          then ("\n    hardware ethernet ".toList) ++ mac.getD [] ++ [';'] else [])
      ++ (if NetAdmin.optTruthy ip
          then ("\n    fixed-address ".toList) ++ ip.getD [] ++ [';'] else [])
      ++ '\n' :: '\x7d' :: suf := by
  have hmatch := NetAdmin.dhcpEditK_eval hostname interior suf hname hint_ne hint
  have hlt : suf.length <
      (("host ".toList) ++ hostname ++ (" \x7b".toList) ++ (interior ++ '\x7d' :: suf)).length := by
    simp [List.length_append]
    omega
  simp only [NetAdmin.applyDhcpChange]
  rw [NetAdmin.reSearchCaps_match_head _ _ _ _ _ hmatch]
  simp only [NetAdmin.reSub]
  rw [show (("host ".toList) ++ hostname ++ (" \x7b".toList) ++ (interior ++ '\x7d' :: suf)).length + 1 =
      (("host ".toList) ++ hostname ++ (" \x7b".toList) ++ (interior ++ '\x7d' :: suf)).length + 1 from rfl]
  rw [NetAdmin.reSubGo_match_head _ _ _ _ _ _ _ hmatch hlt]
  rw [NetAdmin.reSubGo_all_fail _ _ _ _ _ hsuf]
  rw [NetAdmin.expandRepl_id _ _
    (NetAdmin.dhcpEditNewBlock_no_backslash hostname mac ip ts hnb hmacnb hipnb)]
  simp [NetAdmin.dhcpEditNewBlock]

/-- Witness for the amended C7 at a concrete block: editing with only a
MAC rebuilds the block without the old `fixed-address` line. -/
theorem dhcp_edit_payload_only_witness :
    NetAdmin.applyDhcpChange
      (("host ".toList) ++ ("nas".toList) ++ (" \x7b".toList)
        ++ ((" fixed-address 1.2.3.4; ".toList) ++ '\x7d' :: []))
      { action := .edit, hostname := ("nas".toList), mac := some ("aa:bb".toList),
        ip := none, ts := [] } =
    (("host ".toList) ++ ("nas".toList) ++ (" \x7b".toList))
      ++ (if NetAdmin.optTruthy (some ("aa:bb".toList))
          then ("\n    hardware ethernet ".toList) ++ (some ("aa:bb".toList)).getD [] ++ [';']
          else [])
      ++ (if NetAdmin.optTruthy (none : Option NetAdmin.Text)
          then ("\n    fixed-address ".toList) ++ (none : Option NetAdmin.Text).getD [] ++ [';']
          else [])
      ++ '\n' :: '\x7d' :: [] :=
  dhcp_edit_payload_only ("nas".toList) (" fixed-address 1.2.3.4; ".toList) []
    (some ("aa:bb".toList)) none [] (by decide) (by decide) (by decide) (by decide)
    (by decide) (by decide)
    (fun b hb => by rw [List.suffix_nil.mp hb]; decide)

namespace NetAdmin

theorem suffix_append_cases {b x y : Text} (h : b <:+ (x ++ y)) :
    b <:+ y ∨ ∃ σ, σ <:+ x ∧ σ ≠ [] ∧ b = σ ++ y := by
  obtain ⟨u, hu⟩ := h
  rcases List.append_eq_append_iff.mp hu with ⟨a', ha1, ha2⟩ | ⟨c', hc1, hc2⟩
  · rcases List.eq_nil_or_concat a' with rfl | _
    · exact Or.inl (by simp [ha2])
    · exact Or.inr ⟨a', ⟨u, ha1.symm⟩, by rintro rfl; simp_all, ha2⟩
  · exact Or.inl ⟨c', hc2.symm⟩

theorem prefix_append_split {l σ t : Text} (hp : l <+: (σ ++ t)) :
    l <+: σ ∨ ∃ a', a' ≠ [] ∧ l = σ ++ a' ∧ a' <+: t := by
  obtain ⟨v, hv⟩ := hp
  rcases List.append_eq_append_iff.mp hv.symm with ⟨x, hx1, hx2⟩ | ⟨y, hy1, hy2⟩
  · rcases List.eq_nil_or_concat x with rfl | _
    · exact Or.inl (by simp [hx1])
    · exact Or.inr ⟨x, by rintro rfl; simp_all, hx1, ⟨v, hx2.symm⟩⟩
  · exact Or.inl ⟨y, hy1.symm⟩

theorem isPrefixOf_append_both (σ a' t : Text) :
    (σ ++ a').isPrefixOf (σ ++ t) = a'.isPrefixOf t := by
  induction σ with
  | nil => rfl
  | cons c cs ih => simp [List.isPrefixOf, ih]

theorem goLit_prefix_extend (l σ a' t : Text) (k : K) (h : l = σ ++ a') :
    goLit l k (σ ++ t) = goLit a' k t := by
  subst h
  simp only [goLit, isPrefixOf_append_both]
  by_cases hp : a'.isPrefixOf t
  · simp only [hp, if_true]
    congr 1
    rw [List.length_append, ← List.drop_drop, List.drop_left]
  · simp [hp]

theorem goLit_second_ne (c1 c2 : Char) (l : Text) (k : K) (d2 : Char) (s : Text)
    (h : d2 ≠ c2) : goLit (c1 :: c2 :: l) k (c1 :: d2 :: s) = none := by
  apply goLit_none
  rintro ⟨t, ht⟩
  simp only [List.cons_append, List.cons.injEq] at ht
  exact h ht.2.1.symm

end NetAdmin

namespace NetAdmin

theorem mem_all_true {p : Char → Bool} {l : Text} (hall : l.all p = true)
    {c : Char} (hc : c ∈ l) : p c = true :=
  List.all_eq_true.mp hall c hc

theorem macOk_mem {s : Text} (h : macOk s = true) {c : Char} (hc : c ∈ s) :
    c ∈ hexColonChars := by
  simp only [macOk, Bool.and_eq_true] at h
  exact of_decide_eq_true (mem_all_true h.2 hc)

theorem ipOk_mem {s : Text} (h : ipOk s = true) {c : Char} (hc : c ∈ s) :
    c ∈ ipChars := by
  simp only [ipOk, Bool.and_eq_true] at h
  exact of_decide_eq_true (mem_all_true h.2 hc)

theorem macOk_ne (s : Text) (h : macOk s = true) : s ≠ [] := by
  intro hs
  subst hs
  simp [macOk] at h

theorem ipOk_ne (s : Text) (h : ipOk s = true) : s ≠ [] := by
  intro hs
  subst hs
  simp [ipOk] at h

theorem nameOk_mem_facts {s : Text} (h : nameOk s = true) {c : Char} (hc : c ∈ s) :
    pySpace c = false ∧ c ≠ '\x7b' ∧ c ≠ '\x7d' := by
  simp only [nameOk, Bool.and_eq_true] at h
  have := mem_all_true h.2 hc
  simp only [Bool.and_eq_true, Bool.not_eq_true', decide_eq_true_eq] at this
  exact ⟨this.1.1, this.1.2, this.2⟩

end NetAdmin

namespace NetAdmin

theorem hostPat_head_ne (k : K) (s : Text) (c : Char) (hc : s.head? = some c)
    (h : c ≠ 'h') : goLit ("host".toList) k s = none := by
  apply goLit_head_ne 'h' (['o', 's', 't']) k s
  rw [hc]
  simp [h]

theorem hex_ne_h {c : Char} (hc : c ∈ hexColonChars) : c ≠ 'h' :=
  of_decide_eq_true
    (mem_all_true (show hexColonChars.all (fun c => decide (c ≠ 'h')) = true by decide) hc)

theorem hex_ne_i {c : Char} (hc : c ∈ hexColonChars) : c ≠ 'i' :=
  of_decide_eq_true
    (mem_all_true (show hexColonChars.all (fun c => decide (c ≠ 'i')) = true by decide) hc)

theorem ipc_ne_h {c : Char} (hc : c ∈ ipChars) : c ≠ 'h' :=
  of_decide_eq_true
    (mem_all_true (show ipChars.all (fun c => decide (c ≠ 'h')) = true by decide) hc)

theorem ipc_ne_f {c : Char} (hc : c ∈ ipChars) : c ≠ 'f' :=
  of_decide_eq_true
    (mem_all_true (show ipChars.all (fun c => decide (c ≠ 'f')) = true by decide) hc)

/-- The delete pattern fails at any position inside the hostname of a
block: after an embedded `host`, no `\s+nas\s*\{` can follow. -/
theorem delK_name_region (σ T : Text)
    (hσ : ∀ c ∈ σ, pySpace c = false ∧ c ≠ '\x7b' ∧ c ≠ '\x7d') :
    dhcpDeleteK nasT (σ ++ (' ' :: '\x7b' :: T)) = none := by
  by_cases hp : ("host".toList) <+: (σ ++ (' ' :: '\x7b' :: T))
  · rcases prefix_append_split hp with hcase | ⟨a', ha1, ha2, ha3⟩
    · obtain ⟨σ', hσ'⟩ := hcase
      show goLit ("host".toList) _ _ = none
      rw [← hσ', show (("host".toList) ++ σ') ++ (' ' :: '\x7b' :: T) =
        ("host".toList) ++ (σ' ++ (' ' :: '\x7b' :: T)) by simp, goLit_append]
      cases σ' with
      | nil =>
        apply goClassPlus_none
        intro i h1 h2
        simp only [List.nil_append] at h2 ⊢
        have ht : (((' ' :: '\x7b' :: T) : Text).takeWhile pySpace) = [' '] := by
          simp [List.takeWhile_cons, show pySpace ' ' = true by decide,
            show pySpace '\x7b' = false by decide]
        rw [ht] at h2
        simp only [List.length_cons, List.length_nil] at h2
        have : i = 1 := by omega
        subst this
        simp only [List.drop_succ_cons, List.drop_zero]
        exact goLit_head_ne 'n' (['a', 's']) _ _ (by simp)
      | cons c σ'' =>
        apply goClassPlus_none
        intro i h1 h2
        have hcmem : c ∈ σ := by
          rw [← hσ']
          simp
        have : pySpace c = false := (hσ c hcmem).1
        simp only [List.cons_append, List.takeWhile] at h2
        rw [this] at h2
        simp at h2
        omega
    · exfalso
      cases a' with
      | nil => exact ha1 rfl
      | cons d a'' =>
        obtain ⟨v, hv⟩ := ha3
        simp only [List.cons_append, List.cons.injEq] at hv
        have hd : d ∈ ("host".toList) := by
          rw [ha2]
          simp
        rw [hv.1] at hd
        exact absurd hd (by decide)
  · exact goLit_none _ _ _ hp

end NetAdmin

namespace NetAdmin

/-- The delete pattern for `nas` fails at the very start of a block for
any other well-formed hostname. -/
theorem delK_start_fail (nm T : Text) (hname : nameOk nm = true)
    (hnas : nm ≠ nasT) :
    dhcpDeleteK nasT (("host ".toList) ++ nm ++ (' ' :: '\x7b' :: T)) = none := by
  show goLit ("host".toList) _ _ = none
  rw [show ("host ".toList) ++ nm ++ (' ' :: '\x7b' :: T) =
    ("host".toList) ++ ([' '] ++ (nm ++ (' ' :: '\x7b' :: T))) by simp, goLit_append]
  apply goClassPlus_none
  intro i h1 h2
  have hrun : (([' '] ++ (nm ++ (' ' :: '\x7b' :: T))).takeWhile pySpace) = [' '] := by
    rw [takeWhile_append_run pySpace [' '] _ (by decide)]
    intro c hc
    cases hm : nm with
    | nil => exact absurd hm (nameOk_ne nm hname)
    | cons a as =>
      rw [hm] at hc
      simp only [List.cons_append, List.head?_cons, Option.some.injEq] at hc
      rw [← hc]
      exact (nameOk_mem_facts hname (by rw [hm]; simp)).1
  rw [hrun] at h2
  simp only [List.length_cons, List.length_nil] at h2
  have : i = 1 := by omega
  subst this
  simp only [List.singleton_append, List.drop_succ_cons, List.drop_zero]
  by_cases hp : (nasT <+: (nm ++ (' ' :: '\x7b' :: T)))
  · rcases prefix_append_split hp with hcase | ⟨a', ha1, ha2, ha3⟩
    · obtain ⟨n', hn'⟩ := hcase
      rw [← hn', show ((nasT ++ n') ++ (' ' :: '\x7b' :: T)) =
        nasT ++ (n' ++ (' ' :: '\x7b' :: T)) by simp, goLit_append]
      cases n' with
      | nil =>
        exfalso
        apply hnas
        rw [← hn']
        simp
      | cons c n'' =>
        have hcm : c ∈ nm := by
          rw [← hn']
          simp
        apply goClassStar_none
        intro j hj
        have hrun0 : ((c :: n'' ++ (' ' :: '\x7b' :: T)).takeWhile pySpace) = [] := by
          simp only [List.cons_append, List.takeWhile_cons,
            (nameOk_mem_facts hname hcm).1]
          simp
        rw [hrun0] at hj
        simp only [List.length_nil, Nat.le_zero] at hj
        subst hj
        simp only [List.drop_zero]
        apply goLit_head_ne '\x7b' _ _ _
        simp only [List.cons_append, List.head?_cons, ne_eq, Option.some.injEq]
        exact fun hh => (nameOk_mem_facts hname hcm).2.1 hh
    · exfalso
      cases a' with
      | nil => exact ha1 rfl
      | cons d a'' =>
        obtain ⟨v, hv⟩ := ha3
        simp only [List.cons_append, List.cons.injEq] at hv
        have hd : d ∈ nasT := by
          rw [ha2]
          simp
        rw [hv.1] at hd
        exact absurd hd (by decide)
  · exact goLit_none _ _ _ hp

end NetAdmin

namespace NetAdmin

theorem hostPat_head_cons (k : K) (c : Char) (t : Text) (h : c ≠ 'h') :
    goLit ("host".toList) k (c :: t) = none :=
  goLit_head_ne 'h' ['o', 's', 't'] k (c :: t) (by simp [h])

theorem entryOk_parts {e : HostEntry} (he : entryOk e = true) :
    nameOk e.name = true ∧ macOk e.mac = true ∧ ipOk e.ip = true := by
  simpa [entryOk, Bool.and_eq_true, and_assoc] using he

/-- The `nas` delete pattern matches nowhere inside (or at the start of)
a well-formed block for a different hostname, whatever follows it. -/
theorem dhcpDeleteK_none_inside (e : HostEntry) (he : entryOk e = true)
    (hn : e.name ≠ nasT) (b : Text) (hb : b <:+ renderHostBlock e)
    (hbne : b ≠ []) (r : Text) : dhcpDeleteK nasT (b ++ r) = none := by
  obtain ⟨hname, hmac, hip⟩ := entryOk_parts he
  unfold renderHostBlock at hb
  rcases suffix_append_cases hb with h4 | ⟨σ1, hσ1, hσ1ne, rfl⟩
  · -- inside "; \x7d\n"
    rw [← List.mem_tails] at h4
    fin_cases h4 <;>
      first
      | exact absurd rfl hbne
      | exact hostPat_head_cons _ _ _ (by decide)
  rcases suffix_append_cases hσ1 with h5 | ⟨σ2, hσ2, hσ2ne, rfl⟩
  · -- inside the IP
    cases h5x : σ1 with
    | nil => exact absurd h5x hσ1ne
    | cons c σ' =>
      have hcm : c ∈ e.ip := h5.subset (by rw [h5x]; simp)
      subst h5x
      exact hostPat_head_cons _ _ _ (ipc_ne_h (ipOk_mem hip hcm))
  rcases suffix_append_cases hσ2 with h6 | ⟨σ3, hσ3, hσ3ne, rfl⟩
  · -- inside "; fixed-address "
    rw [← List.mem_tails] at h6
    fin_cases h6 <;>
      first
      | exact absurd rfl hσ2ne
      | exact hostPat_head_cons _ _ _ (by decide)
  rcases suffix_append_cases hσ3 with h7 | ⟨σ4, hσ4, hσ4ne, rfl⟩
  · -- inside the MAC
    cases h7x : σ3 with
    | nil => exact absurd h7x hσ3ne
    | cons c σ' =>
      have hcm : c ∈ e.mac := h7.subset (by rw [h7x]; simp)
      subst h7x
      exact hostPat_head_cons _ _ _ (hex_ne_h (macOk_mem hmac hcm))
  rcases suffix_append_cases hσ4 with h8 | ⟨σ5, hσ5, hσ5ne, rfl⟩
  · -- inside " \x7b hardware ethernet "
    rw [← List.mem_tails] at h8
    fin_cases h8 <;>
      first
      | exact absurd rfl hσ4ne
      | exact hostPat_head_cons _ _ _ (by decide)
      | exact goLit_second_ne 'h' 'o' ['s', 't'] _ _ _ (by decide)
  rcases suffix_append_cases hσ5 with h9 | ⟨σ6, hσ6, hσ6ne, rfl⟩
  · -- inside the hostname
    have hfacts : ∀ c ∈ σ5, pySpace c = false ∧ c ≠ '\x7b' ∧ c ≠ '\x7d' :=
      fun c hc => nameOk_mem_facts hname (h9.subset hc)
    have hshape :
        ((((((σ5 ++ (" \x7b hardware ethernet ".toList)) ++ e.mac)
          ++ ("; fixed-address ".toList)) ++ e.ip) ++ ("; \x7d\n".toList)) ++ r) =
        σ5 ++ (' ' :: '\x7b' ::
          ((" hardware ethernet ".toList) ++ (e.mac
            ++ (("; fixed-address ".toList) ++ (e.ip ++ (("; \x7d\n".toList) ++ r)))))) := by
      simp
    rw [hshape]
    exact delK_name_region σ5 _ hfacts
  · -- inside "host " (including the block start)
    rw [← List.mem_tails] at hσ6
    fin_cases hσ6
    · -- σ6 = "host " : the block start
      have hshape :
          (['h', 'o', 's', 't', ' '] ++ e.name ++ (" \x7b hardware ethernet ".toList)
            ++ e.mac ++ ("; fixed-address ".toList) ++ e.ip ++ ("; \x7d\n".toList)) ++ r =
          ("host ".toList) ++ e.name ++ (' ' :: '\x7b' ::
            ((" hardware ethernet ".toList) ++ (e.mac
              ++ (("; fixed-address ".toList) ++ (e.ip ++ (("; \x7d\n".toList) ++ r)))))) := by
        simp
      rw [hshape]
      exact delK_start_fail e.name _ hname hn
    all_goals
      first
      | exact absurd rfl hσ6ne
      | exact hostPat_head_cons _ _ _ (by decide)

end NetAdmin

namespace NetAdmin

theorem renderHostBlocks_append (l1 l2 : List HostEntry) :
    renderHostBlocks (l1 ++ l2) = renderHostBlocks l1 ++ renderHostBlocks l2 := by
  induction l1 with
  | nil => rfl
  | cons e es ih => simp [renderHostBlocks, ih]

theorem delK_none_in_blocks (l : List HostEntry)
    (hl : ∀ e ∈ l, entryOk e = true ∧ e.name ≠ nasT) :
    ∀ b : Text, b <:+ renderHostBlocks l → b ≠ [] → ∀ s : Text,
      dhcpDeleteK nasT (b ++ s) = none := by
  induction l with
  | nil =>
    intro b hb hbne s
    rw [List.suffix_nil.mp hb] at hbne
    exact absurd rfl hbne
  | cons e es ih =>
    intro b hb hbne s
    rcases suffix_append_cases (x := renderHostBlock e) (y := renderHostBlocks es) hb with
      hrest | ⟨σ, hσ, hσne, rfl⟩
    · exact ih (fun d hd => hl d (by simp [hd])) b hrest hbne s
    · rw [show (σ ++ renderHostBlocks es) ++ s = σ ++ (renderHostBlocks es ++ s) by simp]
      exact dhcpDeleteK_none_inside e (hl e (by simp)).1 (hl e (by simp)).2 σ hσ hσne _

/-- Positive match of the delete pattern at the start of a well-formed
block: it consumes the whole block including the trailing newline
(`\s*`), leaving whatever follows, provided that does not start with
whitespace. -/
theorem dhcpDeleteK_eval (hostname interior r : Text)
    (hname : nameOk hostname = true) (hint_ne : interior ≠ [])
    (hint : interior.all (fun c => c ≠ '\x7d') = true)
    (hr : ∀ c, r.head? = some c → pySpace c = false) :
    dhcpDeleteK hostname
      (("host ".toList) ++ hostname ++ (" \x7b".toList) ++ (interior ++ '\x7d' :: '\n' :: r)) =
      some (r, []) := by
  show (goLit ("host".toList) _) _ = _
  refine editPre_eval hostname hname (interior ++ '\x7d' :: '\n' :: r) _ _ ?_
  refine goClassPlus_append _ _ interior ('\x7d' :: '\n' :: r) _ hint_ne hint ?_ ?_
  · intro d hd
    simp only [List.head?_cons, Option.some.injEq] at hd
    rw [← hd]
    decide
  · rw [show ('\x7d' :: '\n' :: r) = ['\x7d'] ++ ('\n' :: r) by simp, goLit_append]
    refine goClassStar_append pySpace _ ['\n'] r _ (by decide) hr rfl

end NetAdmin

namespace NetAdmin

theorem renderHostBlocks_head (l : List HostEntry) :
    ∀ c, (renderHostBlocks l).head? = some c → pySpace c = false := by
  intro c hc
  cases l with
  | nil => simp [renderHostBlocks] at hc
  | cons e es =>
    have hh : (renderHostBlocks (e :: es)).head? = some 'h' := rfl
    rw [hh] at hc
    simp only [Option.some.injEq] at hc
    rw [← hc]
    decide

/-- The pure text transformation of replaying `delete nas` over a
well-formed sequence of blocks: exactly the `nas` block disappears. -/
theorem dhcp_delete_transform (pre post : List HostEntry) (ts : Text)
    (hpre : ∀ e ∈ pre, entryOk e = true ∧ e.name ≠ nasT)
    (hpost : ∀ e ∈ post, entryOk e = true ∧ e.name ≠ nasT) :
    applyDhcpChange (renderHostBlocks (pre ++ nasEntry :: post))
      { action := .delete, hostname := nasT, mac := none, ip := none, ts := ts } =
      renderHostBlocks (pre ++ post) := by
  have hmatch : dhcpDeleteK nasT (renderHostBlock nasEntry ++ renderHostBlocks post) =
      some (renderHostBlocks post, []) := by
    have hshape : renderHostBlock nasEntry ++ renderHostBlocks post =
        ("host ".toList) ++ nasT ++ (" \x7b".toList) ++
          (((" hardware ethernet aa:bb:cc:dd:ee:ff; fixed-address 10.0.0.5; ").toList)
            ++ '\x7d' :: '\n' :: renderHostBlocks post) := by
      simp [renderHostBlock, nasEntry, nasT]
    rw [hshape]
    exact dhcpDeleteK_eval nasT _ (renderHostBlocks post) (by decide) (by decide)
      (by decide) (renderHostBlocks_head post)
  have hsplit : renderHostBlocks (pre ++ nasEntry :: post) =
      renderHostBlocks pre ++ (renderHostBlock nasEntry ++ renderHostBlocks post) := by
    rw [renderHostBlocks_append]
    rfl
  show reSub (noAnchor (dhcpDeleteK nasT)) (fun _ => []) none
      (renderHostBlocks (pre ++ nasEntry :: post)) = _
  rw [hsplit]
  show reSubGo _ _ _ _ _ = _
  have hfuel : (renderHostBlocks pre ++ (renderHostBlock nasEntry ++ renderHostBlocks post)).length + 1 =
      (renderHostBlocks pre).length +
        ((renderHostBlock nasEntry ++ renderHostBlocks post).length + 1) := by
    simp
    omega
  rw [hfuel]
  rw [reSubGo_through (dhcpDeleteK nasT) _ (renderHostBlocks pre) _ _ none
    (fun b hb hbne => delK_none_in_blocks pre hpre b hb hbne _)]
  have hlt : (renderHostBlocks post).length <
      (renderHostBlock nasEntry ++ renderHostBlocks post).length := by
    rw [List.length_append]
    have h0 : 0 < (renderHostBlock nasEntry).length := by decide
    omega
  rw [reSubGo_match_head _ _ _ _ _ _ _ hmatch hlt]
  rw [reSubGo_all_fail _ _ _ _ _ ?hfail]
  case hfail =>
    intro b hb
    rcases List.eq_nil_or_concat b with rfl | _
    · decide
    · have hbne : b ≠ [] := by rintro rfl; simp_all
      have := delK_none_in_blocks post hpost b hb hbne []
      simpa using this
  rw [renderHostBlocks_append]
  simp

end NetAdmin

namespace NetAdmin

theorem hex_not_space {c : Char} (hc : c ∈ hexColonChars) : pySpace c = false :=
  of_decide_eq_true
    (mem_all_true (show hexColonChars.all (fun c => decide (pySpace c = false)) = true by decide) hc)

theorem hex_wordColon {c : Char} (hc : c ∈ hexColonChars) : wordColon c = true :=
  mem_all_true (show hexColonChars.all wordColon = true by decide) hc

theorem hex_ne_rbrace {c : Char} (hc : c ∈ hexColonChars) : c ≠ '\x7d' :=
  of_decide_eq_true
    (mem_all_true (show hexColonChars.all (fun c => decide (c ≠ '\x7d')) = true by decide) hc)

theorem ipc_not_space {c : Char} (hc : c ∈ ipChars) : pySpace c = false :=
  of_decide_eq_true
    (mem_all_true (show ipChars.all (fun c => decide (pySpace c = false)) = true by decide) hc)

theorem ipc_ne_rbrace {c : Char} (hc : c ∈ ipChars) : c ≠ '\x7d' :=
  of_decide_eq_true
    (mem_all_true (show ipChars.all (fun c => decide (c ≠ '\x7d')) = true by decide) hc)

theorem nameOk_nonspace {s : Text} (h : nameOk s = true) :
    s.all (fun c => !pySpace c) = true := by
  rw [List.all_eq_true]
  intro c hc
  simp [(nameOk_mem_facts h hc).1]

theorem macOk_all_wordColon {s : Text} (h : macOk s = true) :
    s.all wordColon = true := by
  rw [List.all_eq_true]
  intro c hc
  exact hex_wordColon (macOk_mem h hc)

theorem interiorOf_all_ne_rbrace (e : HostEntry) (he : entryOk e = true) :
    (interiorOf e).all (fun c => c ≠ '\x7d') = true := by
  obtain ⟨hname, hmac, hip⟩ := entryOk_parts he
  rw [List.all_eq_true]
  intro c hc
  simp only [interiorOf, List.mem_append] at hc
  rcases hc with ((((h | h) | h) | h) | h)
  · exact mem_all_true (show (" hardware ethernet ".toList).all
      (fun c => decide (c ≠ '\x7d')) = true by decide) h
  · exact decide_eq_true (hex_ne_rbrace (macOk_mem hmac h))
  · exact mem_all_true (show ("; fixed-address ".toList).all
      (fun c => decide (c ≠ '\x7d')) = true by decide) h
  · exact decide_eq_true (ipc_ne_rbrace (ipOk_mem hip h))
  · exact mem_all_true (show ("; ".toList).all
      (fun c => decide (c ≠ '\x7d')) = true by decide) h

end NetAdmin

namespace NetAdmin

theorem interiorOf_ne (e : HostEntry) : interiorOf e ≠ [] := by
  intro h0
  have := congrArg List.length h0
  simp [interiorOf] at this

/-- The host pattern, evaluated on a rendered block followed by
anything: it consumes the block up to the closing brace and captures
the hostname and the interior. -/
theorem hostDeclK_eval (e : HostEntry) (he : entryOk e = true) (r : Text) :
    hostDeclK (renderHostBlock e ++ r) = some ('\n' :: r, [e.name, interiorOf e]) := by
  obtain ⟨hname, hmac, hip⟩ := entryOk_parts he
  have h2 : goGroup (goClassPlus (fun c => c ≠ '\x7d')) (goLit ['\x7d'] kEnd)
      (interiorOf e ++ '\x7d' :: '\n' :: r) = some ('\n' :: r, [interiorOf e]) := by
    simp only [goGroup]
    refine goClassPlus_append _ _ (interiorOf e) ('\x7d' :: '\n' :: r) _
      (interiorOf_ne e) (interiorOf_all_ne_rbrace e he) ?_ ?_
    · intro d hd
      simp only [List.head?_cons, Option.some.injEq] at hd
      rw [← hd]
      decide
    · rw [show ('\x7d' :: '\n' :: r) = ['\x7d'] ++ ('\n' :: r) by simp, goLit_append]
      simp [kEnd, take_append_sub (interiorOf e) ('\x7d' :: '\n' :: r)]
  have e1 : renderHostBlock e ++ r =
      ("host".toList) ++ ([' '] ++ (e.name ++ ([' '] ++
        ('\x7b' :: (interiorOf e ++ '\x7d' :: '\n' :: r))))) := by
    simp [renderHostBlock, interiorOf]
  simp only [hostDeclK]
  rw [e1, goLit_append]
  refine goClassPlus_append pySpace _ [' '] _ _ (by simp) (by decide) ?_ ?_
  · intro d hd
    cases hc : e.name with
    | nil => exact absurd hc (nameOk_ne _ hname)
    | cons a as =>
      rw [hc] at hd
      simp only [List.cons_append, List.head?_cons, Option.some.injEq] at hd
      rw [← hd]
      exact nameOk_head (a :: as) (hc ▸ hname) a rfl
  · simp only [goGroup]
    refine goClassPlus_append (fun c => !pySpace c) _ e.name
      ([' '] ++ ('\x7b' :: (interiorOf e ++ '\x7d' :: '\n' :: r))) _
      (nameOk_ne _ hname) (nameOk_nonspace hname) ?_ ?_
    · intro d hd
      simp only [List.cons_append, List.head?_cons, Option.some.injEq] at hd
      rw [← hd]
      decide
    · have h4 : goClassStar pySpace
          (goLit ['\x7b'] (goGroup (goClassPlus (fun c => c ≠ '\x7d')) (goLit ['\x7d'] kEnd)))
          ([' '] ++ ('\x7b' :: (interiorOf e ++ '\x7d' :: '\n' :: r))) =
          some ('\n' :: r, [interiorOf e]) := by
        refine goClassStar_append pySpace _ [' '] _ _ (by decide) ?_ ?_
        · intro d hd
          simp only [List.head?_cons, Option.some.injEq] at hd
          rw [← hd]
          decide
        · rw [show ('\x7b' :: (interiorOf e ++ '\x7d' :: '\n' :: r)) =
              ['\x7b'] ++ (interiorOf e ++ '\x7d' :: '\n' :: r) by simp, goLit_append]
          exact h2
      rw [h4]
      simp only [Option.map]
      rw [take_append_sub e.name ([' '] ++ ('\x7b' :: (interiorOf e ++ '\x7d' :: '\n' :: r)))]

end NetAdmin

namespace NetAdmin

theorem macSearchK_head_ne (c : Char) (t : Text) (h : c ≠ 'h') :
    macSearchK (c :: t) = none :=
  goLit_head_ne 'h' (['a', 'r', 'd', 'w', 'a', 'r', 'e']) _ (c :: t) (by simp [h])

theorem ipSearchK_head_ne (c : Char) (t : Text) (h : c ≠ 'f') :
    ipSearchK (c :: t) = none :=
  goLit_head_ne 'f' (['i', 'x', 'e', 'd', '-', 'a', 'd', 'd', 'r', 'e', 's', 's'])
    _ (c :: t) (by simp [h])

theorem ipSearchK_second_ne (d : Char) (t : Text) (h : d ≠ 'i') :
    ipSearchK ('f' :: d :: t) = none :=
  goLit_second_ne 'f' 'i' (['x', 'e', 'd', '-', 'a', 'd', 'd', 'r', 'e', 's', 's'])
    _ d t h

theorem ipOk_all_nonspace {s : Text} (h : ipOk s = true) :
    s.all (fun c => !pySpace c) = true := by
  rw [List.all_eq_true]
  intro c hc
  simp [ipc_not_space (ipOk_mem h hc)]

/-- `fixed-address` cannot start inside a MAC address followed by a
semicolon: an `f` there is never followed by an `i`. -/
theorem ipSearchK_mac_region (mac : Text) (hmac : macOk mac = true) (σ : Text)
    (hσ : σ <:+ mac) (hne : σ ≠ []) (t : Text) :
    ipSearchK (σ ++ (';' :: t)) = none := by
  cases σ with
  | nil => exact absurd rfl hne
  | cons c σ' =>
    by_cases hcf : c = 'f'
    · subst hcf
      cases σ' with
      | nil => exact ipSearchK_second_ne ';' t (by decide)
      | cons d σ'' =>
        have hdmem : d ∈ hexColonChars := macOk_mem hmac (hσ.subset (by simp))
        exact ipSearchK_second_ne d _ (hex_ne_i hdmem)
    · exact ipSearchK_head_ne c _ hcf

end NetAdmin

namespace NetAdmin

/-- The `hardware ethernet` search on a block interior finds the MAC. -/
theorem macSearch_interior (e : HostEntry) (he : entryOk e = true) :
    reSearchCaps (noAnchor macSearchK) none (interiorOf e) = some [e.mac] := by
  obtain ⟨hname, hmac, hip⟩ := entryOk_parts he
  have hpat : macSearchK = goLit (['h', 'a', 'r', 'd', 'w', 'a', 'r', 'e'])
      (goClassPlus pySpace
        (goLit (['e', 't', 'h', 'e', 'r', 'n', 'e', 't'])
          (goClassPlus pySpace
            (goGroup (goClassPlus wordColon) kEnd)))) := rfl
  have hm : ∀ suf : Text, macSearchK (['h', 'a', 'r', 'd', 'w', 'a', 'r', 'e'] ++
      ([' '] ++ (['e', 't', 'h', 'e', 'r', 'n', 'e', 't'] ++
        ([' '] ++ (e.mac ++ (';' :: suf)))))) = some ((';' :: suf), [e.mac]) := by
    intro suf
    rw [hpat, goLit_append]
    refine goClassPlus_append pySpace _ [' '] _ _ (by simp) (by decide) ?_ ?_
    · intro d hd
      simp only [List.cons_append, List.head?_cons, Option.some.injEq] at hd
      rw [← hd]
      decide
    · rw [goLit_append]
      refine goClassPlus_append pySpace _ [' '] _ _ (by simp) (by decide) ?_ ?_
      · intro d hd
        cases hc : e.mac with
        | nil => exact absurd hc (macOk_ne _ hmac)
        | cons a as =>
          rw [hc] at hd
          simp only [List.cons_append, List.head?_cons, Option.some.injEq] at hd
          rw [← hd]
          exact hex_not_space (macOk_mem hmac (by rw [hc]; exact List.mem_cons_self a as))
      · simp only [goGroup]
        refine goClassPlus_append wordColon _ e.mac (';' :: suf) _ (macOk_ne _ hmac)
          (macOk_all_wordColon hmac) ?_ ?_
        · intro d hd
          simp only [List.head?_cons, Option.some.injEq] at hd
          rw [← hd]
          decide
        · simp [kEnd, take_append_sub e.mac (';' :: suf)]
  have hshape : interiorOf e = [' '] ++
      (['h', 'a', 'r', 'd', 'w', 'a', 'r', 'e'] ++
        ([' '] ++ (['e', 't', 'h', 'e', 'r', 'n', 'e', 't'] ++
          ([' '] ++ (e.mac ++ (';' ::
            (' ' :: (['f', 'i', 'x', 'e', 'd', '-', 'a', 'd', 'd', 'r', 'e', 's', 's'] ++
              (' ' :: (e.ip ++ [';', ' '])))))))))) := by
    simp [interiorOf]
  rw [hshape]
  rw [reSearchCaps_through macSearchK [' '] _ none ?_]
  · exact reSearchCaps_match_head macSearchK _ _ [e.mac] none (hm _)
  · intro b hb hbne
    rw [← List.mem_tails] at hb
    fin_cases hb
    · exact macSearchK_head_ne ' ' _ (by decide)
    · exact absurd rfl hbne

end NetAdmin

namespace NetAdmin

/-- The `fixed-address` search on a block interior finds the IP with the
trailing semicolon (the `\S+` is greedy through it). -/
theorem ipSearch_interior (e : HostEntry) (he : entryOk e = true) :
    reSearchCaps (noAnchor ipSearchK) none (interiorOf e) = some [e.ip ++ [';']] := by
  obtain ⟨hname, hmac, hip⟩ := entryOk_parts he
  have hpat : ipSearchK = goLit (['f', 'i', 'x', 'e', 'd', '-', 'a', 'd', 'd', 'r', 'e', 's', 's'])
      (goClassPlus pySpace
        (goGroup (goClassPlus (fun c => !pySpace c)) kEnd)) := rfl
  have hm : ipSearchK (['f', 'i', 'x', 'e', 'd', '-', 'a', 'd', 'd', 'r', 'e', 's', 's'] ++
      ([' '] ++ ((e.ip ++ [';']) ++ [' ']))) = some ([' '], [e.ip ++ [';']]) := by
    rw [hpat, goLit_append]
    refine goClassPlus_append pySpace _ [' '] _ _ (by simp) (by decide) ?_ ?_
    · intro d hd
      cases hc : e.ip with
      | nil => exact absurd hc (ipOk_ne _ hip)
      | cons a as =>
        rw [hc] at hd
        simp only [List.cons_append, List.head?_cons, Option.some.injEq] at hd
        rw [← hd]
        exact ipc_not_space (ipOk_mem hip (by rw [hc]; exact List.mem_cons_self a as))
    · simp only [goGroup]
      refine goClassPlus_append (fun c => !pySpace c) _ (e.ip ++ [';']) [' '] _
        (by simp) ?_ ?_ ?_
      · rw [List.all_append]
        exact (Bool.and_eq_true _ _).mpr ⟨ipOk_all_nonspace hip, by decide⟩
      · intro d hd
        simp only [List.head?_cons, Option.some.injEq] at hd
        rw [← hd]
        decide
      · rw [take_append_sub (e.ip ++ [';']) [' ']]
        simp [kEnd]
  have hshape : interiorOf e =
      ([' '] ++ (['h', 'a', 'r', 'd', 'w', 'a', 'r', 'e'] ++
        ([' '] ++ (['e', 't', 'h', 'e', 'r', 'n', 'e', 't'] ++
          ([' '] ++ (e.mac ++ [';', ' '])))))) ++
      (['f', 'i', 'x', 'e', 'd', '-', 'a', 'd', 'd', 'r', 'e', 's', 's'] ++
        ([' '] ++ ((e.ip ++ [';']) ++ [' ']))) := by
    simp [interiorOf]
  rw [hshape]
  rw [reSearchCaps_through ipSearchK _ _ none ?_]
  · exact reSearchCaps_match_head ipSearchK _ _ [e.ip ++ [';']] none hm
  · intro b hb hbne
    rcases suffix_append_cases hb with h1 | ⟨σ1, hσ1, hσ1ne, rfl⟩
    · -- inside "hardware ethernet MAC; " after the leading space
      rcases suffix_append_cases h1 with h2 | ⟨σ2, hσ2, hσ2ne, rfl⟩
      · -- past "hardware"
        rcases suffix_append_cases h2 with h3 | ⟨σ3, hσ3, hσ3ne, rfl⟩
        · -- past the space after "hardware"
          rcases suffix_append_cases h3 with h4 | ⟨σ4, hσ4, hσ4ne, rfl⟩
          · -- past "ethernet"
            rcases suffix_append_cases h4 with h5 | ⟨σ5, hσ5, hσ5ne, rfl⟩
            · -- inside "MAC; " : tail part first
              rcases suffix_append_cases h5 with h6 | ⟨σ6, hσ6, hσ6ne, rfl⟩
              · -- inside "; "
                rw [← List.mem_tails] at h6
                fin_cases h6
                · exact ipSearchK_head_ne ';' _ (by decide)
                · exact ipSearchK_head_ne ' ' _ (by decide)
                · exact absurd rfl hbne
              · -- inside the MAC
                rw [show (σ6 ++ [';', ' ']) ++
                    (['f', 'i', 'x', 'e', 'd', '-', 'a', 'd', 'd', 'r', 'e', 's', 's'] ++
                      ([' '] ++ ((e.ip ++ [';']) ++ [' ']))) =
                    σ6 ++ (';' :: (' ' ::
                      (['f', 'i', 'x', 'e', 'd', '-', 'a', 'd', 'd', 'r', 'e', 's', 's'] ++
                        ([' '] ++ ((e.ip ++ [';']) ++ [' ']))))) by simp]
                exact ipSearchK_mac_region e.mac hmac σ6 hσ6 hσ6ne _
            · -- the space after "ethernet"
              rw [← List.mem_tails] at hσ5
              fin_cases hσ5
              · exact ipSearchK_head_ne ' ' _ (by decide)
              · exact absurd rfl hσ5ne
          · -- inside "ethernet"
            rw [← List.mem_tails] at hσ4
            fin_cases hσ4 <;>
              first
              | exact absurd rfl hσ4ne
              | exact ipSearchK_head_ne _ _ (by decide)
        · -- the space after "hardware"
          rw [← List.mem_tails] at hσ3
          fin_cases hσ3
          · exact ipSearchK_head_ne ' ' _ (by decide)
          · exact absurd rfl hσ3ne
      · -- inside "hardware"
        rw [← List.mem_tails] at hσ2
        fin_cases hσ2 <;>
          first
          | exact absurd rfl hσ2ne
          | exact ipSearchK_head_ne _ _ (by decide)
    · -- the leading space
      rw [← List.mem_tails] at hσ1
      fin_cases hσ1
      · exact ipSearchK_head_ne ' ' _ (by decide)
      · exact absurd rfl hσ1ne

end NetAdmin

namespace NetAdmin

/-- A rendered block's interior parses back to the expected record. -/
theorem hostFromBlock_interior (e : HostEntry) (he : entryOk e = true) :
    hostFromBlock e.name (interiorOf e) = some (hostRecOf e) := by
  simp only [hostFromBlock, macSearch_interior e he, ipSearch_interior e he, hostRecOf]

end NetAdmin

namespace NetAdmin

/-- The host pattern finds exactly one match per rendered block, in
order, capturing the hostname and the interior. -/
theorem hostScan_blocks (l : List HostEntry) (hl : ∀ e ∈ l, entryOk e = true) :
    ∀ fuel : Nat, (renderHostBlocks l).length < fuel →
      reFindAllGo (noAnchor hostDeclK) fuel none (renderHostBlocks l) =
        l.map (fun e => [e.name, interiorOf e]) := by
  induction l with
  | nil =>
    intro fuel hf
    cases fuel with
    | zero => exact absurd hf (Nat.not_lt_zero _)
    | succ f =>
      simp [renderHostBlocks, reFindAllGo, noAnchor,
        show hostDeclK [] = none by decide]
  | cons e es ih =>
    intro fuel hf
    cases fuel with
    | zero => exact absurd hf (Nat.not_lt_zero _)
    | succ f =>
      have hblock2 : 2 ≤ (renderHostBlock e).length := by
        simp [renderHostBlock]
      have hf' : (renderHostBlock e ++ renderHostBlocks es).length < f + 1 := by
        simpa [renderHostBlocks] using hf
      rw [show renderHostBlocks (e :: es) = renderHostBlock e ++ renderHostBlocks es
        from rfl]
      rw [reFindAllGo_match_head hostDeclK _ _ _ f none
        (hostDeclK_eval e (hl e (by simp)) _)
        (by rw [List.length_append] at hf' ⊢; simp only [List.length_cons]; omega)]
      congr 1
      obtain ⟨f', rfl⟩ : ∃ f', f = 1 + f' := by
        refine ⟨f - 1, ?_⟩
        rw [List.length_append] at hf'
        omega
      rw [show ('\n' :: renderHostBlocks es) = ['\n'] ++ renderHostBlocks es from rfl]
      rw [show (1 + f') = (['\n'] : Text).length + f' from rfl]
      rw [reFindAllGo_through hostDeclK ['\n'] _ f' none ?_]
      · refine ih (fun d hd => hl d (by simp [hd])) f' ?_
        rw [List.length_append] at hf'
        omega
      · intro b hb hbne
        rw [← List.mem_tails] at hb
        fin_cases hb
        · exact hostPat_head_cons _ '\n' _ (by decide)
        · exact absurd rfl hbne

theorem dhcpHostScan_blocks (l : List HostEntry) (hl : ∀ e ∈ l, entryOk e = true) :
    dhcpHostScan (renderHostBlocks l) =
      l.map (fun e => (e.name, interiorOf e)) := by
  simp only [dhcpHostScan, reFindAll]
  rw [hostScan_blocks l hl _ (Nat.lt_succ_self _)]
  induction l with
  | nil => rfl
  | cons e es ih => simp_all

theorem filterMap_blocks (l : List HostEntry) (hl : ∀ e ∈ l, entryOk e = true) :
    (l.map (fun e => (e.name, interiorOf e))).filterMap
        (fun nb => hostFromBlock nb.1 nb.2) =
      l.map hostRecOf := by
  induction l with
  | nil => rfl
  | cons e es ih =>
    simp only [List.map_cons, List.filterMap_cons]
    rw [show hostFromBlock (e.name, interiorOf e).1 (e.name, interiorOf e).2 =
        some (hostRecOf e) from hostFromBlock_interior e (hl e (by simp))]
    rw [ih (fun d hd => hl d (by simp [hd]))]

/-- Parsing a sequence of rendered blocks yields exactly their records,
sorted by lower-cased hostname. -/
theorem parse_blocks (l : List HostEntry) (hl : ∀ e ∈ l, entryOk e = true) :
    parse_dhcp_hosts (renderHostBlocks l) = pySortBy hostLe (l.map hostRecOf) := by
  simp only [parse_dhcp_hosts]
  rw [dhcpHostScan_blocks l hl, filterMap_blocks l hl]

end NetAdmin

namespace NetAdmin

theorem char_lt_or (a b : Char) (h : a ≠ b) : a.val < b.val ∨ b.val < a.val := by
  have hne : a.val.toNat ≠ b.val.toNat := by
    intro he
    exact h (Char.ext (UInt32.ext he))
  rcases Nat.lt_or_ge a.val.toNat b.val.toNat with hlt | hge
  · exact Or.inl hlt
  · exact Or.inr (Nat.lt_of_le_of_ne hge (fun he => hne he.symm))

theorem lexLe_trans {s t u : Text} (h1 : lexLe s t = true) (h2 : lexLe t u = true) :
    lexLe s u = true := by
  induction s generalizing t u with
  | nil => rfl
  | cons a as ih =>
    cases t with
    | nil => simp [lexLe] at h1
    | cons b bs =>
      cases u with
      | nil => simp [lexLe] at h2
      | cons c cs =>
        simp only [lexLe] at h1 h2 ⊢
        by_cases hab : a = b
        · subst hab
          by_cases hac : a = c
          · subst hac
            simp only [if_pos rfl] at h1 h2 ⊢
            exact ih h1 h2
          · simp only [if_pos rfl] at h1
            simp only [hac, if_neg hac] at h2 ⊢
            exact h2
        · have hab' : a.val < b.val := of_decide_eq_true (by simpa [hab] using h1)
          by_cases hbc : b = c
          · subst hbc
            simp only [hab, if_neg hab] at h1 ⊢
            exact h1
          · have hbc' : b.val < c.val := of_decide_eq_true (by simpa [hbc] using h2)
            have hac' : a.val < c.val := Nat.lt_trans hab' hbc'
            have hane : a ≠ c := by
              intro he
              subst he
              exact absurd hac' (by exact Nat.lt_irrefl _)
            simp only [hane, if_neg hane]
            exact decide_eq_true hac'

theorem lexLe_total (s t : Text) : lexLe s t = true ∨ lexLe t s = true := by
  induction s generalizing t with
  | nil => exact Or.inl rfl
  | cons a as ih =>
    cases t with
    | nil => exact Or.inr rfl
    | cons b bs =>
      by_cases hab : a = b
      · subst hab
        rcases ih bs with h | h
        · exact Or.inl (by simp [lexLe, h])
        · exact Or.inr (by simp [lexLe, h])
      · rcases char_lt_or a b hab with h | h
        · exact Or.inl (by simp [lexLe, hab, h])
        · exact Or.inr (by simp [lexLe, Ne.symm hab, h])

theorem hostLe_trans {a b c : HostRec} (h1 : hostLe a b = true)
    (h2 : hostLe b c = true) : hostLe a c = true :=
  lexLe_trans h1 h2

theorem hostLe_total (a b : HostRec) : hostLe a b = true ∨ hostLe b a = true :=
  lexLe_total _ _

end NetAdmin

namespace NetAdmin

theorem mem_insSorted {α : Type} (le : α → α → Bool) (x b : α) :
    ∀ l : List α, b ∈ insSorted le x l ↔ b = x ∨ b ∈ l := by
  intro l
  induction l with
  | nil => simp [insSorted]
  | cons y ys ih =>
    by_cases h : le x y = true <;> simp [insSorted, h, ih] <;> tauto

theorem insSorted_pairwise {α : Type} (le : α → α → Bool)
    (htrans : ∀ {a b c}, le a b = true → le b c = true → le a c = true)
    (htotal : ∀ a b, le a b = true ∨ le b a = true) (x : α) :
    ∀ l : List α, List.Pairwise (fun a b => le a b = true) l →
      List.Pairwise (fun a b => le a b = true) (insSorted le x l) := by
  intro l
  induction l with
  | nil => simp [insSorted]
  | cons y ys ih =>
    intro hl
    rcases List.pairwise_cons.mp hl with ⟨hy, hys⟩
    by_cases hxy : le x y = true
    · rw [insSorted, if_pos hxy]
      refine List.pairwise_cons.mpr ⟨?_, hl⟩
      intro b hb
      rcases List.mem_cons.mp hb with rfl | hb'
      · exact hxy
      · exact htrans hxy (hy b hb')
    · rw [insSorted, if_neg hxy]
      refine List.pairwise_cons.mpr ⟨?_, ih hys⟩
      intro b hb
      rcases (mem_insSorted le x b ys).mp hb with hbx | hb'
      · rw [hbx]
        rcases htotal x y with h | h
        · exact absurd h hxy
        · exact h
      · exact hy b hb'

theorem pySortBy_pairwise {α : Type} (le : α → α → Bool)
    (htrans : ∀ {a b c}, le a b = true → le b c = true → le a c = true)
    (htotal : ∀ a b, le a b = true ∨ le b a = true) :
    ∀ l : List α, List.Pairwise (fun a b => le a b = true) (pySortBy le l) := by
  intro l
  induction l with
  | nil => simp [pySortBy]
  | cons x xs ih => exact insSorted_pairwise le htrans htotal x _ ih

theorem filter_insSorted_neg {α : Type} (le : α → α → Bool) (p : α → Bool)
    (x : α) (hx : p x = false) :
    ∀ l : List α, (insSorted le x l).filter p = l.filter p := by
  intro l
  induction l with
  | nil => simp [insSorted, hx]
  | cons y ys ih =>
    by_cases h : le x y = true
    · simp [insSorted, h, List.filter_cons, hx]
    · rw [insSorted, if_neg h]
      simp only [List.filter_cons, ih]

theorem insSorted_all_le {α : Type} (le : α → α → Bool) (x : α) (l : List α)
    (h : ∀ b ∈ l, le x b = true) : insSorted le x l = x :: l := by
  cases l with
  | nil => rfl
  | cons y ys => rw [insSorted, if_pos (h y (by simp))]

theorem filter_insSorted_pos {α : Type} (le : α → α → Bool)
    (htrans : ∀ {a b c}, le a b = true → le b c = true → le a c = true)
    (p : α → Bool) (x : α) (hx : p x = true) :
    ∀ l : List α, List.Pairwise (fun a b => le a b = true) l →
      (insSorted le x l).filter p = insSorted le x (l.filter p) := by
  intro l
  induction l with
  | nil => simp [insSorted, hx]
  | cons y ys ih =>
    intro hl
    rcases List.pairwise_cons.mp hl with ⟨hy, hys⟩
    by_cases hxy : le x y = true
    · rw [insSorted, if_pos hxy]
      cases hpy : p y
      · have hall : ∀ b ∈ ys.filter p, le x b = true := by
          intro b hb
          exact htrans hxy (hy b (List.mem_of_mem_filter hb))
        rw [insSorted_all_le le x ((y :: ys).filter p) ?_]
        · simp [List.filter_cons, hx]
        · intro b hb
          simp only [List.filter_cons, hpy, cond_false] at hb
          exact hall b hb
      · rw [show (y :: ys).filter p = y :: ys.filter p by simp [List.filter_cons, hpy]]
        rw [insSorted, if_pos hxy]
        simp [List.filter_cons, hx, hpy]
    · rw [insSorted, if_neg hxy]
      cases hpy : p y
      · rw [show (y :: ys).filter p = ys.filter p by simp [List.filter_cons, hpy]]
        simp only [List.filter_cons, hpy, cond_false]
        exact ih hys
      · rw [show (y :: ys).filter p = y :: ys.filter p by simp [List.filter_cons, hpy]]
        rw [insSorted, if_neg hxy]
        simp only [List.filter_cons, hpy, cond_true]
        rw [ih hys]
        simp

theorem pySortBy_filter {α : Type} (le : α → α → Bool)
    (htrans : ∀ {a b c}, le a b = true → le b c = true → le a c = true)
    (htotal : ∀ a b, le a b = true ∨ le b a = true) (p : α → Bool) :
    ∀ l : List α, (pySortBy le l).filter p = pySortBy le (l.filter p) := by
  intro l
  induction l with
  | nil => rfl
  | cons x xs ih =>
    simp only [pySortBy]
    cases hx : p x
    · rw [filter_insSorted_neg le p x hx, ih]
      rw [show (x :: xs).filter p = xs.filter p by simp [List.filter_cons, hx]]
    · rw [filter_insSorted_pos le htrans p x hx _ (pySortBy_pairwise le htrans htotal xs), ih]
      rw [show (x :: xs).filter p = x :: xs.filter p by simp [List.filter_cons, hx]]
      rfl

end NetAdmin

/-- **C8.** Reading a DHCP text consisting of the block
`host nas \x7b hardware ethernet aa:bb:cc:dd:ee:ff; fixed-address 10.0.0.5; \x7d`
yields the record `(nas, aa:bb:cc:dd:ee:ff, 10.0.0.5)`; and for every
configuration made of that block surrounded by well-formed blocks for
other hostnames, staging `delete("nas")` and applying produces a text
whose re-read host list equals the original list minus `nas` — no other
host's block is removed. -/
theorem dhcp_delete_roundtrip :
    NetAdmin.parse_dhcp_hosts (NetAdmin.renderHostBlocks [NetAdmin.nasEntry]) =
      [{ name := NetAdmin.nasT, mac := ("aa:bb:cc:dd:ee:ff".toList),
         address := some ("10.0.0.5".toList) }] ∧
    ∀ (oracle : NetAdmin.Oracle) (tempPath confPath ts : NetAdmin.Text)
      (pre post : List NetAdmin.HostEntry),
      (∀ e ∈ pre, NetAdmin.entryOk e = true ∧ e.name ≠ NetAdmin.nasT) →
      (∀ e ∈ post, NetAdmin.entryOk e = true ∧ e.name ≠ NetAdmin.nasT) →
      NetAdmin.parse_dhcp_hosts
          ((NetAdmin.apply_dhcp_changes oracle tempPath confPath
              (NetAdmin.renderHostBlocks (pre ++ NetAdmin.nasEntry :: post))
              (NetAdmin.delete_dhcp_host NetAdmin.nasT ts [])).newText) =
        (NetAdmin.parse_dhcp_hosts
            (NetAdmin.renderHostBlocks (pre ++ NetAdmin.nasEntry :: post))).filter
          (fun h => h.name ≠ NetAdmin.nasT) := by
  open NetAdmin in
  constructor
  · decide
  · intro oracle tempPath confPath ts pre post hpre hpost
    have hfold : NetAdmin.dhcp_fold_changes
        (NetAdmin.renderHostBlocks (pre ++ NetAdmin.nasEntry :: post))
        (NetAdmin.delete_dhcp_host NetAdmin.nasT ts []) =
        NetAdmin.renderHostBlocks (pre ++ post) := by
      simp only [NetAdmin.delete_dhcp_host, List.filter_nil, List.nil_append,
        NetAdmin.dhcp_fold_changes, List.foldl_cons, List.foldl_nil]
      exact NetAdmin.dhcp_delete_transform pre post ts hpre hpost
    have hnew : (NetAdmin.apply_dhcp_changes oracle tempPath confPath
        (NetAdmin.renderHostBlocks (pre ++ NetAdmin.nasEntry :: post))
        (NetAdmin.delete_dhcp_host NetAdmin.nasT ts [])).newText =
        NetAdmin.renderHostBlocks (pre ++ post) := by
      simp only [NetAdmin.apply_dhcp_changes]
      by_cases hcp : (NetAdmin.run_with_sudo oracle
          (NetAdmin.dhcpCpCmd tempPath confPath)).1 <;>
        simp [hcp, hfold]
    rw [hnew]
    have hentry : NetAdmin.entryOk NetAdmin.nasEntry = true := by decide
    have hall1 : ∀ e ∈ pre ++ post, NetAdmin.entryOk e = true := by
      intro e he
      rcases List.mem_append.mp he with h | h
      · exact (hpre e h).1
      · exact (hpost e h).1
    have hall2 : ∀ e ∈ pre ++ NetAdmin.nasEntry :: post, NetAdmin.entryOk e = true := by
      intro e he
      rcases List.mem_append.mp he with h | h
      · exact (hpre e h).1
      · rcases List.mem_cons.mp h with rfl | h'
        · exact hentry
        · exact (hpost e h').1
    rw [NetAdmin.parse_blocks (pre ++ post) hall1,
      NetAdmin.parse_blocks (pre ++ NetAdmin.nasEntry :: post) hall2]
    rw [NetAdmin.pySortBy_filter NetAdmin.hostLe NetAdmin.hostLe_trans
      NetAdmin.hostLe_total _ _]
    congr 1
    symm
    rw [List.map_append, List.map_cons, List.filter_append, List.filter_cons]
    have hnas : (decide (¬(NetAdmin.hostRecOf NetAdmin.nasEntry).name = NetAdmin.nasT)) =
        false := by decide
    rw [hnas]
    simp only [Bool.false_eq_true, if_false, List.map_append]
    congr 1
    · refine List.filter_eq_self.mpr ?_
      intro h hmem
      rcases List.mem_map.mp hmem with ⟨e, he, rfl⟩
      exact decide_eq_true (show (NetAdmin.hostRecOf e).name ≠ NetAdmin.nasT from
        (hpre e he).2)
    · refine List.filter_eq_self.mpr ?_
      intro h hmem
      rcases List.mem_map.mp hmem with ⟨e, he, rfl⟩
      exact decide_eq_true (show (NetAdmin.hostRecOf e).name ≠ NetAdmin.nasT from
        (hpost e he).2)

/-- Witness for the delete round trip: a `printer` block before the
`nas` block, all hypotheses discharged concretely. -/
theorem dhcp_delete_roundtrip_witness :
    NetAdmin.parse_dhcp_hosts
        ((NetAdmin.apply_dhcp_changes NetAdmin.oracleOk [] []
            (NetAdmin.renderHostBlocks
              ([NetAdmin.printerEntry] ++ NetAdmin.nasEntry :: []))
            (NetAdmin.delete_dhcp_host NetAdmin.nasT [] [])).newText) =
      (NetAdmin.parse_dhcp_hosts
          (NetAdmin.renderHostBlocks
            ([NetAdmin.printerEntry] ++ NetAdmin.nasEntry :: []))).filter
        (fun h => h.name ≠ NetAdmin.nasT) :=
  dhcp_delete_roundtrip.2 NetAdmin.oracleOk [] [] [] [NetAdmin.printerEntry] []
    (by decide) (by decide)

namespace NetAdmin

theorem firstSome_mem {α β : Type} (f : α → Option β) :
    ∀ (l : List α) (x : β), firstSome f l = some x → ∃ a ∈ l, f a = some x := by
  intro l
  induction l with
  | nil => intro x h; simp [firstSome] at h
  | cons a as ih =>
    intro x h
    cases hfa : f a with
    | some w =>
      simp only [firstSome, hfa, Option.some.injEq] at h
      subst h
      exact ⟨a, by simp, hfa⟩
    | none =>
      simp only [firstSome, hfa] at h
      obtain ⟨b, hb, hfb⟩ := ih x h
      exact ⟨b, by simp [hb], hfb⟩

theorem firstSome_isSome {α β : Type} (f : α → Option β) :
    ∀ (l : List α) (a : α), a ∈ l → (f a).isSome → (firstSome f l).isSome := by
  intro l
  induction l with
  | nil => intro a ha _; simp at ha
  | cons b bs ih =>
    intro a ha hfa
    cases hfb : f b with
    | some w => rw [firstSome, hfb]; rfl
    | none =>
      rw [firstSome, hfb]
      rcases List.mem_cons.mp ha with rfl | ha'
      · rw [hfb] at hfa; simp at hfa
      · exact ih a ha' hfa

theorem takeWhile_append_left {p : Char → Bool} :
    ∀ (v u : Text), (∃ c ∈ v, p c = false) →
      (v ++ u).takeWhile p = v.takeWhile p := by
  intro v
  induction v with
  | nil => intro u h; simp at h
  | cons a as ih =>
    intro u h
    cases hpa : p a with
    | false => simp [List.takeWhile, hpa]
    | true =>
      simp only [List.cons_append, List.takeWhile, hpa]
      obtain ⟨c, hc, hpc⟩ := h
      rcases List.mem_cons.mp hc with rfl | hc'
      · rw [hpa] at hpc; cases hpc
      · rw [show as.append u = as ++ u from rfl, ih u ⟨c, hc', hpc⟩]

theorem le_length_takeWhile_append {p : Char → Bool} :
    ∀ (v u : Text), v.all p → v.length ≤ ((v ++ u).takeWhile p).length := by
  intro v
  induction v with
  | nil => intro u _; simp
  | cons a as ih =>
    intro u h
    simp only [List.all_cons, Bool.and_eq_true] at h
    simp only [List.cons_append, List.takeWhile, h.1, List.length_cons]
    exact Nat.succ_le_succ (ih u h.2)

theorem goClassPlus_some {p : Char → Bool} {k : K} {s : Text} {x : Text × List Text}
    (h : goClassPlus p k s = some x) :
    ∃ i, 1 ≤ i ∧ i ≤ (s.takeWhile p).length ∧ k (s.drop i) = some x := by
  obtain ⟨i, hi, hki⟩ := firstSome_mem _ _ _ h
  rw [mem_descToOne] at hi
  exact ⟨i, hi.1, hi.2, hki⟩

theorem goClassStar_some {p : Char → Bool} {k : K} {s : Text} {x : Text × List Text}
    (h : goClassStar p k s = some x) :
    ∃ i, i ≤ (s.takeWhile p).length ∧ k (s.drop i) = some x := by
  obtain ⟨i, hi, hki⟩ := firstSome_mem _ _ _ h
  rw [mem_descToZero] at hi
  exact ⟨i, hi, hki⟩

theorem goEol_some {k : K} {s : Text} {x : Text × List Text}
    (h : goEol k s = some x) :
    k s = some x ∧ (s = [] ∨ s.head? = some '\n') := by
  cases s with
  | nil => exact ⟨h, Or.inl rfl⟩
  | cons c cs =>
    simp only [goEol] at h
    by_cases hc : c = '\n'
    · subst hc
      rw [if_pos rfl] at h
      exact ⟨h, Or.inr rfl⟩
    · rw [if_neg hc] at h
      cases h

theorem goLit_some {l : Text} {k : K} {s : Text} {x : Text × List Text}
    (h : goLit l k s = some x) :
    ∃ t, s = l ++ t ∧ k t = some x := by
  simp only [goLit] at h
  by_cases hp : l.isPrefixOf s
  · rw [if_pos hp] at h
    obtain ⟨t, ht⟩ := List.isPrefixOf_iff_prefix.mp hp
    refine ⟨t, ht.symm, ?_⟩
    rw [← ht, List.drop_left] at h
    exact h
  · rw [if_neg hp] at h
    cases h

theorem getLast?_suffix {v' v : Text} (h : v' <:+ v) (hne : v' ≠ []) :
    v'.getLast? = v.getLast? := by
  obtain ⟨u, hu⟩ := h
  rw [← hu, List.getLast?_append_of_ne_nil u hne]

end NetAdmin

namespace NetAdmin

/-- Any successful parse of `\s+.*$` starting inside the line must end
exactly at the line's newline: whitespace runs cannot reach the newline
because the line's last character is not whitespace, and `.` stops at
newlines. -/
theorem dnsTail_some {v0 after : Text}
    (hv0nl : v0.all (fun c => c ≠ '\n') = true)
    (hlast : ∃ c, v0.getLast? = some c ∧ pySpace c = false) :
    ∀ v' : Text, v' <:+ v0 → v' ≠ [] →
      ∀ x, goClassPlus pySpace (goDotStar (goEol kEnd)) (v' ++ '\n' :: after) = some x →
        x = ('\n' :: after, []) := by
  intro v' hsuf hne x hx
  obtain ⟨i, hi1, hi2, hki⟩ := goClassPlus_some hx
  have hvlast : ∃ c ∈ v', pySpace c = false := by
    obtain ⟨c, hc, hcw⟩ := hlast
    have hgl : v'.getLast? = some c := by rw [getLast?_suffix hsuf hne, hc]
    exact ⟨c, List.mem_of_mem_getLast? hgl, hcw⟩
  rw [takeWhile_append_left v' ('\n' :: after) hvlast] at hi2
  have hi2' : i ≤ v'.length := le_trans hi2 (List.takeWhile_sublist _).length_le
  rw [List.drop_append_of_le_length hi2'] at hki
  simp only [goDotStar] at hki
  obtain ⟨j, hj, hkj⟩ := goClassStar_some hki
  have hdnl : (v'.drop i).all (fun c => decide (c ≠ '\n')) = true := by
    rw [List.all_eq_true]
    intro c hc
    exact mem_all_true hv0nl (hsuf.subset ((List.drop_suffix i v').subset hc))
  rw [takeWhile_append_run _ _ _ hdnl (fun c hc => by
    simp only [List.head?_cons, Option.some.injEq] at hc
    rw [← hc]
    simp)] at hj
  rw [List.drop_append_of_le_length hj] at hkj
  obtain ⟨hk, hcase⟩ := goEol_some hkj
  cases hvv : (v'.drop i).drop j with
  | nil =>
    rw [hvv] at hk
    simp only [List.nil_append, kEnd, Option.some.injEq] at hk
    exact hk.symm
  | cons d ds =>
    rw [hvv] at hcase
    rcases hcase with hnil | hhead
    · simp at hnil
    · simp only [List.cons_append, List.head?_cons, Option.some.injEq] at hhead
      have hdmem : d ∈ v0 := by
        refine hsuf.subset (((List.drop_suffix i v').trans ?_).subset ?_)
        · exact List.suffix_refl v'
        · exact (List.drop_suffix j _).subset (by rw [hvv]; simp)
      have := mem_all_true hv0nl hdmem
      rw [hhead] at this
      simp at this

end NetAdmin

namespace NetAdmin

/-- Any successful parse of `.*T\s+.*$` starting inside the line ends
exactly at the line's newline: the type string cannot straddle the
newline, cannot sit at the very end of the line, and the tail parse is
pinned by the previous lemma. -/
theorem dnsDotT_some {T v0 after : Text}
    (hTnl : T.all (fun c => c ≠ '\n') = true)
    (hTsuf : ¬ T <:+ v0)
    (hv0nl : v0.all (fun c => c ≠ '\n') = true)
    (hlast : ∃ c, v0.getLast? = some c ∧ pySpace c = false) :
    ∀ v' : Text, v' <:+ v0 →
      ∀ x, goDotStar (goLit T (goClassPlus pySpace (goDotStar (goEol kEnd))))
          (v' ++ '\n' :: after) = some x →
        x = ('\n' :: after, []) := by
  intro v' hsuf x hx
  simp only [goDotStar] at hx
  obtain ⟨j, hj, hkj⟩ := goClassStar_some hx
  have hvnl : v'.all (fun c => decide (c ≠ '\n')) = true := by
    rw [List.all_eq_true]
    intro c hc
    exact mem_all_true hv0nl (hsuf.subset hc)
  rw [takeWhile_append_run _ _ _ hvnl (fun c hc => by
    simp only [List.head?_cons, Option.some.injEq] at hc
    rw [← hc]
    simp)] at hj
  rw [List.drop_append_of_le_length hj] at hkj
  obtain ⟨t, ht, hkt⟩ := goLit_some hkj
  have hTpre : T <+: (v'.drop j ++ '\n' :: after) := ⟨t, ht.symm⟩
  rcases prefix_append_split hTpre with hTv | ⟨a', ha'ne, hTeq, ha'pre⟩
  · obtain ⟨r', hr'⟩ := hTv
    have htr : t = r' ++ '\n' :: after := by
      rw [← hr', List.append_assoc] at ht
      exact (List.append_cancel_left ht).symm
    subst htr
    have hr'ne : r' ≠ [] := by
      rintro rfl
      apply hTsuf
      have hTv' : T = v'.drop j := by simpa using hr'
      rw [hTv']
      exact (List.drop_suffix j v').trans hsuf
    have h1 : r' <:+ v'.drop j := ⟨T, hr'⟩
    have hr'suf : r' <:+ v0 := h1.trans ((List.drop_suffix j v').trans hsuf)
    exact dnsTail_some hv0nl hlast r' hr'suf hr'ne x hkt
  · exfalso
    cases a' with
    | nil => exact ha'ne rfl
    | cons b bs =>
      obtain ⟨u, hu⟩ := ha'pre
      simp only [List.cons_append, List.cons.injEq] at hu
      have hbT : b ∈ T := by rw [hTeq]; simp
      have := mem_all_true hTnl hbT
      rw [hu.1] at this
      simp at this

end NetAdmin

namespace NetAdmin

/-- Any successful match of the delete pattern at the start of the line
consumes exactly the line: the value is forced. -/
theorem dnsDeleteK_some_unique {N T v0 after : Text}
    (hTnl : T.all (fun c => c ≠ '\n') = true)
    (hTsuf : ¬ T <:+ v0)
    (hv0nl : v0.all (fun c => c ≠ '\n') = true)
    (hlast : ∃ c, v0.getLast? = some c ∧ pySpace c = false) :
    ∀ x, dnsDeleteK N T ((N ++ v0) ++ '\n' :: after) = some x →
      x = ('\n' :: after, []) := by
  intro x hx
  simp only [dnsDeleteK] at hx
  rw [List.append_assoc, goLit_append] at hx
  obtain ⟨i, hi1, hi2, hki⟩ := goClassPlus_some hx
  have hv0ne : v0 ≠ [] := by
    obtain ⟨c, hc, _⟩ := hlast
    intro h0
    rw [h0] at hc
    simp at hc
  have hvlast : ∃ c ∈ v0, pySpace c = false := by
    obtain ⟨c, hc, hcw⟩ := hlast
    exact ⟨c, List.mem_of_mem_getLast? hc, hcw⟩
  rw [takeWhile_append_left v0 ('\n' :: after) hvlast] at hi2
  have hi2' : i ≤ v0.length := le_trans hi2 (List.takeWhile_sublist _).length_le
  rw [List.drop_append_of_le_length hi2'] at hki
  exact dnsDotT_some hTnl hTsuf hv0nl hlast (v0.drop i) (List.drop_suffix i v0) x hki

end NetAdmin

namespace NetAdmin

theorem goClassPlus_isSome {p : Char → Bool} {k : K} {s : Text} (i : Nat)
    (hi1 : 1 ≤ i) (hi2 : i ≤ (s.takeWhile p).length) (hk : (k (s.drop i)).isSome = true) :
    (goClassPlus p k s).isSome = true :=
  firstSome_isSome _ _ i ((mem_descToOne i _).mpr ⟨hi1, hi2⟩) hk

theorem goClassStar_isSome {p : Char → Bool} {k : K} {s : Text} (i : Nat)
    (hi2 : i ≤ (s.takeWhile p).length) (hk : (k (s.drop i)).isSome = true) :
    (goClassStar p k s).isSome = true :=
  firstSome_isSome _ _ i ((mem_descToZero i _).mpr hi2) hk

/-- The delete pattern does match a line of the deletable shape. -/
theorem dnsDeleteK_isSome {N T w1 mid w2 tl after : Text}
    (hw1ne : w1 ≠ []) (hw1 : w1.all pySpace = true)
    (hw2ne : w2 ≠ []) (hw2 : w2.all pySpace = true)
    (hmidnl : mid.all (fun c => c ≠ '\n') = true)
    (htlnl : tl.all (fun c => c ≠ '\n') = true) :
    (dnsDeleteK N T
      ((N ++ (w1 ++ (mid ++ (T ++ (w2 ++ tl))))) ++ '\n' :: after)).isSome = true := by
  simp only [dnsDeleteK]
  rw [List.append_assoc, goLit_append]
  rw [show (w1 ++ (mid ++ (T ++ (w2 ++ tl)))) ++ '\n' :: after =
      w1 ++ (mid ++ (T ++ (w2 ++ (tl ++ '\n' :: after)))) by simp]
  refine goClassPlus_isSome w1.length (List.length_pos.mpr hw1ne)
    (le_length_takeWhile_append w1 _ hw1) ?_
  rw [List.drop_left]
  simp only [goDotStar]
  refine goClassStar_isSome mid.length (le_length_takeWhile_append mid _ hmidnl) ?_
  rw [List.drop_left, goLit_append]
  refine goClassPlus_isSome w2.length (List.length_pos.mpr hw2ne)
    (le_length_takeWhile_append w2 _ hw2) ?_
  rw [List.drop_left]
  refine goClassStar_isSome tl.length (le_length_takeWhile_append tl _ htlnl) ?_
  rw [List.drop_left]
  simp [goEol, kEnd]

/-- The delete pattern on a deletable line: it matches and consumes
exactly the line, whatever the record type written on it. -/
theorem dnsDeleteK_eval_line {N T w1 mid w2 tl after : Text}
    (hTnl : T.all (fun c => c ≠ '\n') = true)
    (hw1ne : w1 ≠ []) (hw1 : w1.all pySpace = true)
    (hw2ne : w2 ≠ []) (hw2 : w2.all pySpace = true)
    (hmidnl : mid.all (fun c => c ≠ '\n') = true)
    (htlnl : tl.all (fun c => c ≠ '\n') = true)
    (hw1nl : w1.all (fun c => c ≠ '\n') = true)
    (hw2nl : w2.all (fun c => c ≠ '\n') = true)
    (htlast : ∃ c, tl.getLast? = some c ∧ pySpace c = false)
    (hTsuf : ¬ T <:+ (w1 ++ (mid ++ (T ++ (w2 ++ tl))))) :
    dnsDeleteK N T ((N ++ (w1 ++ (mid ++ (T ++ (w2 ++ tl))))) ++ '\n' :: after) =
      some ('\n' :: after, []) := by
  have htlne : tl ≠ [] := by
    obtain ⟨c, hc, _⟩ := htlast
    intro h0
    rw [h0] at hc
    simp at hc
  have hv0nl : (w1 ++ (mid ++ (T ++ (w2 ++ tl)))).all (fun c => c ≠ '\n') = true := by
    simp only [List.all_append, Bool.and_eq_true]
    exact ⟨hw1nl, hmidnl, hTnl, hw2nl, htlnl⟩
  have hlast : ∃ c, (w1 ++ (mid ++ (T ++ (w2 ++ tl)))).getLast? = some c ∧
      pySpace c = false := by
    obtain ⟨c, hc, hcw⟩ := htlast
    refine ⟨c, ?_, hcw⟩
    rw [List.getLast?_append_of_ne_nil _ (by simp [htlne]),
      List.getLast?_append_of_ne_nil _ (by simp [htlne]),
      List.getLast?_append_of_ne_nil _ (by simp [htlne]),
      List.getLast?_append_of_ne_nil _ htlne]
    exact hc
  obtain ⟨x, hx⟩ := Option.isSome_iff_exists.mp
    (dnsDeleteK_isSome hw1ne hw1 hw2ne hw2 hmidnl htlnl)
  rw [hx, dnsDeleteK_some_unique hTnl hTsuf hv0nl hlast x hx]

end NetAdmin

namespace NetAdmin

/-- MULTILINE `^` never fires mid-line: scanning from inside a line
just copies it through the newline. -/
theorem reSubGo_bol_midline (m : K) (repl : List Text → Text) :
    ∀ (cs rest : Text) (fuel : Nat) (c : Char), c ≠ '\n' →
      cs.all (fun d => d ≠ '\n') = true →
      reSubGo (bolAnchor m) repl ((cs.length + 1) + fuel) (some c) (cs ++ '\n' :: rest) =
        cs ++ '\n' :: reSubGo (bolAnchor m) repl fuel (some '\n') rest := by
  intro cs
  induction cs with
  | nil =>
    intro rest fuel c hc _
    rw [show (List.length ([] : Text) + 1) + fuel = fuel + 1 by simp [Nat.add_comm]]
    simp only [List.nil_append, reSubGo, bolAnchor, if_neg hc]
  | cons d ds ih =>
    intro rest fuel c hc hall
    simp only [List.all_cons, Bool.and_eq_true] at hall
    rw [show ((d :: ds).length + 1) + fuel = ((ds.length + 1) + fuel) + 1 by
      simp only [List.length_cons]; omega]
    simp only [List.cons_append, reSubGo, bolAnchor, List.append_eq, if_neg hc]
    rw [ih rest fuel d (of_decide_eq_true hall.1) hall.2]

/-- A line at which the pattern fails is copied unchanged, and the scan
resumes at the start of the next line. -/
theorem reSubGo_bol_skipline (m : K) (repl : List Text → Text)
    (l rest : Text) (fuel : Nat)
    (hnl : l.all (fun c => c ≠ '\n') = true)
    (hm : m (l ++ '\n' :: rest) = none)
    (hmn : m ('\n' :: rest) = none)
    (prev : Option Char) (hprev : prev = none ∨ prev = some '\n') :
    reSubGo (bolAnchor m) repl ((l.length + 1) + fuel) prev (l ++ '\n' :: rest) =
      l ++ '\n' :: reSubGo (bolAnchor m) repl fuel (some '\n') rest := by
  cases l with
  | nil =>
    rw [show (List.length ([] : Text) + 1) + fuel = fuel + 1 by simp [Nat.add_comm]]
    rcases hprev with rfl | rfl
    · simp only [List.nil_append, reSubGo, bolAnchor, hmn]
    · simp only [List.nil_append, reSubGo, bolAnchor, if_pos rfl, hmn, if_true]
  | cons c cs =>
    simp only [List.all_cons, Bool.and_eq_true] at hnl
    rw [show ((c :: cs).length + 1) + fuel = ((cs.length + 1) + fuel) + 1 by
      simp only [List.length_cons]; omega]
    have hm' : bolAnchor m prev (c :: (cs ++ '\n' :: rest)) = none := by
      rcases hprev with rfl | rfl
      · simpa [bolAnchor] using hm
      · simpa [bolAnchor] using hm
    simp only [List.cons_append, reSubGo, List.append_eq, hm']
    rw [reSubGo_bol_midline m repl cs rest fuel c (of_decide_eq_true hnl.1) hnl.2]

/-- A line the delete pattern matches is removed: the match consumes
exactly the line, the empty replacement is inserted, and the scan
resumes after the newline (which `$` does not consume). -/
theorem reSubGo_bol_delline (m : K)
    (l rest : Text) (fuel : Nat) (d : Char)
    (hd : l.getLast? = some d) (hdn : d ≠ '\n')
    (hm : m (l ++ '\n' :: rest) = some ('\n' :: rest, []))
    (prev : Option Char) (hprev : prev = none ∨ prev = some '\n') :
    reSubGo (bolAnchor m) (fun _ => []) (fuel + 2) prev (l ++ '\n' :: rest) =
      '\n' :: reSubGo (bolAnchor m) (fun _ => []) fuel (some '\n') rest := by
  have hlne : l ≠ [] := by
    intro h0
    rw [h0] at hd
    simp at hd
  cases l with
  | nil => exact absurd rfl hlne
  | cons c cs =>
    have hm' : bolAnchor m prev (c :: (cs ++ '\n' :: rest)) =
        some ('\n' :: rest, []) := by
      rcases hprev with rfl | rfl
      · simpa [bolAnchor] using hm
      · simpa [bolAnchor] using hm
    have hlt : ('\n' :: rest).length < (c :: (cs ++ '\n' :: rest)).length := by
      simp only [List.length_cons, List.length_append]
      omega
    have htake : (c :: (cs ++ '\n' :: rest)).take
        ((c :: (cs ++ '\n' :: rest)).length - ('\n' :: rest).length) = c :: cs := by
      have h1 : (c :: (cs ++ '\n' :: rest)) = (c :: cs) ++ '\n' :: rest := by simp
      rw [h1, take_append_sub]
    simp only [List.cons_append, reSubGo, List.append_eq, hm', hlt, if_pos hlt, htake]
    rw [show (c :: cs).getLast? = some d from hd]
    simp only [List.nil_append, if_true, bolAnchor, if_neg hdn]

end NetAdmin

namespace NetAdmin

theorem dnsDeleteK_nil {N : Text} (T : Text) (hNne : N ≠ []) :
    dnsDeleteK N T [] = none := by
  simp only [dnsDeleteK]
  exact goLit_none _ _ _ (fun hpre => hNne (List.prefix_nil.mp hpre))

theorem dnsDeleteK_head_ne {N : Text} (T : Text) (c : Char) (t : Text)
    (hNne : N ≠ []) (h : N.head? ≠ some c) :
    dnsDeleteK N T (c :: t) = none := by
  cases N with
  | nil => exact absurd rfl hNne
  | cons n0 ns =>
    simp only [dnsDeleteK]
    refine goLit_head_ne n0 ns _ (c :: t) ?_
    simp only [List.head?_cons, ne_eq, Option.some.injEq]
    intro hcn
    exact h (by simp [hcn])

/-- The whole `re.sub` of a delete over a newline-terminated sequence
of lines: marked (matching) lines are emptied, the rest are kept. -/
theorem dnsSub_lines (m : K)
    (hmnil : m [] = none)
    (hmn : ∀ t : Text, m ('\n' :: t) = none) :
    ∀ (lines : List (Text × Bool)) (fuel : Nat) (prev : Option Char),
      prev = none ∨ prev = some '\n' →
      (concatLines (lines.map Prod.fst)).length < fuel →
      (∀ p ∈ lines,
        p.1.all (fun c => c ≠ '\n') = true ∧
        (if p.2 then
            (∃ d, p.1.getLast? = some d ∧ d ≠ '\n') ∧
            ∀ t : Text, m (p.1 ++ '\n' :: t) = some ('\n' :: t, [])
          else ∀ t : Text, m (p.1 ++ '\n' :: t) = none)) →
      reSubGo (bolAnchor m) (fun _ => []) fuel prev
          (concatLines (lines.map Prod.fst)) =
        concatLines (lines.map (fun p => if p.2 then [] else p.1)) := by
  intro lines
  induction lines with
  | nil =>
    intro fuel prev hprev hf _
    cases fuel with
    | zero => exact absurd hf (Nat.not_lt_zero _)
    | succ f =>
      rcases hprev with rfl | rfl
      · simp only [List.map_nil, concatLines, reSubGo, bolAnchor, hmnil]
      · simp only [List.map_nil, concatLines, reSubGo, bolAnchor, if_pos rfl, hmnil,
          if_true]
  | cons p ps ih =>
    intro fuel prev hprev hf hlines
    obtain ⟨hnl, hrest⟩ := hlines p (by simp)
    have hlines' : ∀ q ∈ ps,
        q.1.all (fun c => c ≠ '\n') = true ∧
        (if q.2 then
            (∃ d, q.1.getLast? = some d ∧ d ≠ '\n') ∧
            ∀ t : Text, m (q.1 ++ '\n' :: t) = some ('\n' :: t, [])
          else ∀ t : Text, m (q.1 ++ '\n' :: t) = none) :=
      fun q hq => hlines q (by simp [hq])
    have hflen : (p.1 ++ '\n' :: concatLines (ps.map Prod.fst)).length < fuel := by
      simpa [concatLines] using hf
    rw [show concatLines ((p :: ps).map Prod.fst) =
        p.1 ++ '\n' :: concatLines (ps.map Prod.fst) from rfl]
    rw [show concatLines ((p :: ps).map (fun q => if q.2 then [] else q.1)) =
        (if p.2 then [] else p.1) ++
          '\n' :: concatLines (ps.map (fun q => if q.2 then [] else q.1)) from rfl]
    cases hp2 : p.2 with
    | true =>
      rw [hp2] at hrest
      simp only [if_pos rfl] at hrest
      obtain ⟨⟨d, hd, hdn⟩, hmatch⟩ := hrest
      have hpne : p.1 ≠ [] := by
        intro h0
        rw [h0] at hd
        simp at hd
      have hge : 2 ≤ fuel := by
        rw [List.length_append, List.length_cons] at hflen
        have : 1 ≤ p.1.length := List.length_pos.mpr hpne
        omega
      obtain ⟨f', rfl⟩ : ∃ f', fuel = f' + 2 := ⟨fuel - 2, by omega⟩
      rw [reSubGo_bol_delline m p.1 _ f' d hd hdn (hmatch _) prev hprev]
      rw [ih f' (some '\n') (Or.inr rfl) (by
        rw [List.length_append, List.length_cons] at hflen
        have : 1 ≤ p.1.length := List.length_pos.mpr hpne
        omega) hlines']
      simp
    | false =>
      rw [hp2] at hrest
      simp only [Bool.false_eq_true, if_false] at hrest
      have hmn' : m ('\n' :: concatLines (ps.map Prod.fst)) = none :=
        hmn _
      obtain ⟨f', rfl⟩ : ∃ f', fuel = (p.1.length + 1) + f' := by
        refine ⟨fuel - (p.1.length + 1), ?_⟩
        rw [List.length_append, List.length_cons] at hflen
        omega
      rw [reSubGo_bol_skipline m _ p.1 _ f' hnl (hrest _) hmn' prev hprev]
      rw [ih f' (some '\n') (Or.inr rfl) (by
        rw [List.length_append, List.length_cons] at hflen
        omega) hlines']
      simp

end NetAdmin

namespace NetAdmin

theorem all_nonspace_no_newline {s : Text} (h : s.all (fun c => !pySpace c) = true) :
    s.all (fun c => c ≠ '\n') = true := by
  rw [List.all_eq_true] at h ⊢
  intro c hc
  have hcw := h c hc
  simp only [Bool.not_eq_true'] at hcw
  refine decide_eq_true ?_
  intro hcn
  subst hcn
  simp [pySpace] at hcw

/-- Replaying a staged delete `(N, T)` over a zone text: every line of
the deletable shape — it starts with `N` plus whitespace and later
carries `T` plus whitespace, whatever its record type — is emptied, and
lines starting with a different first character are untouched. -/
theorem applyDnsChange_delete_lines (N T z ts : Text)
    (hNne : N ≠ []) (hNw : N.all (fun c => !pySpace c) = true)
    (hTw : T.all (fun c => !pySpace c) = true)
    (lines : List (Text × Bool))
    (hlines : ∀ p ∈ lines,
      p.1.all (fun c => c ≠ '\n') = true ∧
      (if p.2 then
          ∃ w1 mid w2 tl, p.1 = N ++ w1 ++ mid ++ T ++ w2 ++ tl ∧
            w1 ≠ [] ∧ w1.all pySpace = true ∧ w2 ≠ [] ∧ w2.all pySpace = true ∧
            (∃ c, tl.getLast? = some c ∧ pySpace c = false) ∧ ¬ T <:+ p.1
        else ∀ c, p.1.head? = some c → N.head? ≠ some c)) :
    applyDnsChange (concatLines (lines.map Prod.fst))
        { action := .delete, zone := z, name := N, rtype := T,
          value := none, ts := ts } =
      concatLines (lines.map (fun p => if p.2 then [] else p.1)) := by
  have hNhead : N.head? ≠ some '\n' := by
    cases N with
    | nil => exact absurd rfl hNne
    | cons n0 ns =>
      simp only [List.head?_cons, ne_eq, Option.some.injEq]
      intro h0
      have := mem_all_true hNw (List.mem_cons_self n0 ns)
      rw [h0] at this
      simp [pySpace] at this
  show reSub (bolAnchor (dnsDeleteK N T)) (fun _ => []) none _ = _
  show reSubGo _ _ _ _ _ = _
  refine dnsSub_lines (dnsDeleteK N T) (dnsDeleteK_nil T hNne)
    (fun t => dnsDeleteK_head_ne T '\n' t hNne hNhead)
    lines _ none (Or.inl rfl) (Nat.lt_succ_self _) ?_
  intro p hp
  obtain ⟨hnl, hrest⟩ := hlines p hp
  refine ⟨hnl, ?_⟩
  cases hp2 : p.2 with
  | false =>
    rw [hp2] at hrest
    simp only [Bool.false_eq_true, if_false] at hrest ⊢
    intro t
    cases hc : p.1 with
    | nil => exact dnsDeleteK_head_ne T '\n' t hNne hNhead
    | cons c cs =>
      have hh := hrest c (by rw [hc]; rfl)
      exact dnsDeleteK_head_ne T c _ hNne hh
  | true =>
    rw [hp2] at hrest
    simp only [if_pos rfl] at hrest ⊢
    obtain ⟨w1, mid, w2, tl, heq, hw1ne, hw1, hw2ne, hw2, htlast, hTsuf⟩ := hrest
    have hparts := hnl
    rw [heq] at hparts
    simp only [List.all_append, Bool.and_eq_true] at hparts
    obtain ⟨⟨⟨⟨⟨hNnl, hw1nl⟩, hmidnl⟩, hTnl⟩, hw2nl⟩, htlnl⟩ := hparts
    have htlne : tl ≠ [] := by
      obtain ⟨c, hcl, _⟩ := htlast
      intro h0
      rw [h0] at hcl
      simp at hcl
    constructor
    · obtain ⟨c, hcl, hcw⟩ := htlast
      refine ⟨c, ?_, ?_⟩
      · rw [heq, List.getLast?_append_of_ne_nil _ htlne]
        exact hcl
      · intro h0
        rw [h0] at hcw
        simp [pySpace] at hcw
    · intro t
      rw [heq]
      rw [show ((((N ++ w1) ++ mid) ++ T) ++ w2 ++ tl) ++ '\n' :: t =
          (N ++ (w1 ++ (mid ++ (T ++ (w2 ++ tl))))) ++ '\n' :: t by simp]
      refine dnsDeleteK_eval_line hTnl hw1ne hw1 hw2ne hw2 hmidnl htlnl hw1nl hw2nl
        htlast ?_
      intro hsuf
      apply hTsuf
      rw [heq]
      have h1 : (w1 ++ (mid ++ (T ++ (w2 ++ tl)))) <:+
          N ++ (w1 ++ (mid ++ (T ++ (w2 ++ tl)))) := List.suffix_append N _
      have h2 := hsuf.trans h1
      rw [show N ++ (w1 ++ (mid ++ (T ++ (w2 ++ tl)))) =
          N ++ w1 ++ mid ++ T ++ w2 ++ tl by simp] at h2
      exact h2

end NetAdmin

namespace NetAdmin

theorem head_ne_helper {a b : Char} (hab : a ≠ b) (t u : Text) :
    ∀ c, (a :: t).head? = some c → (b :: u).head? ≠ some c := by
  intro c hc
  simp only [List.head?_cons, Option.some.injEq] at hc
  intro h
  simp only [List.head?_cons, Option.some.injEq] at h
  rw [← hc] at h
  exact hab h.symm

end NetAdmin

/-- **C10.** Replaying a DNS delete for `(N, T)` removes from the zone
text every line that begins with `N` plus whitespace and later contains
`T` plus whitespace, whatever record type the line actually carries
(lines starting with any other first character are kept); in
particular, on a zone holding `web A` and `web AAAA` lines, deleting
`(web, A)` also empties the AAAA line: the re-read zone has no AAAA
record left. -/
theorem dns_delete_type_agnostic :
    (∀ N T z ts : NetAdmin.Text, N ≠ [] →
      N.all (fun c => !NetAdmin.pySpace c) = true →
      T.all (fun c => !NetAdmin.pySpace c) = true →
      ∀ lines : List (NetAdmin.Text × Bool),
        (∀ p ∈ lines,
          p.1.all (fun c => c ≠ '\n') = true ∧
          (if p.2 then
              ∃ w1 mid w2 tl, p.1 = N ++ w1 ++ mid ++ T ++ w2 ++ tl ∧
                w1 ≠ [] ∧ w1.all NetAdmin.pySpace = true ∧
                w2 ≠ [] ∧ w2.all NetAdmin.pySpace = true ∧
                (∃ c, tl.getLast? = some c ∧ NetAdmin.pySpace c = false) ∧
                ¬ T <:+ p.1
            else ∀ c, p.1.head? = some c → N.head? ≠ some c)) →
        NetAdmin.applyDnsChange (NetAdmin.concatLines (lines.map Prod.fst))
            { action := .delete, zone := z, name := N, rtype := T,
              value := none, ts := ts } =
          NetAdmin.concatLines (lines.map (fun p => if p.2 then [] else p.1))) ∧
    NetAdmin.zone_AAAA_records NetAdmin.c10Zone =
      [{ name := ("web".toList), rtype := ("AAAA".toList),
         value := ("fe80::1".toList) }] ∧
    NetAdmin.zone_AAAA_records
      (NetAdmin.applyDnsChange NetAdmin.c10Zone NetAdmin.c10Delete) = [] := by
  refine ⟨?_, by decide, by decide⟩
  intro N T z ts hNne hNw hTw lines hlines
  exact NetAdmin.applyDnsChange_delete_lines N T z ts hNne hNw hTw lines hlines

/-- Witness for the delete shape theorem: the C10 zone spelled as
marked lines — deleting `(web, A)` empties both the `A` and the `AAAA`
line for `web`, all hypotheses discharged concretely. -/
theorem dns_delete_type_agnostic_witness :
    NetAdmin.applyDnsChange
        (NetAdmin.concatLines
          [("ns1\tIN\tA\t10.0.0.2".toList), ("web\tIN\tA\t10.0.0.9".toList),
           ("web\tIN\tAAAA\tfe80::1".toList),
           ("mail\tIN\tMX\t10 mx.example.com.".toList)])
        { action := .delete, zone := [], name := ("web".toList),
          rtype := ("A".toList), value := none, ts := [] } =
      NetAdmin.concatLines
        [("ns1\tIN\tA\t10.0.0.2".toList), [], [],
         ("mail\tIN\tMX\t10 mx.example.com.".toList)] := by
  have h := dns_delete_type_agnostic.1 ("web".toList) ("A".toList) [] []
    (by decide) (by decide) (by decide)
    [(("ns1\tIN\tA\t10.0.0.2".toList), false),
     (("web\tIN\tA\t10.0.0.9".toList), true),
     (("web\tIN\tAAAA\tfe80::1".toList), true),
     (("mail\tIN\tMX\t10 mx.example.com.".toList), false)]
    ?_
  · exact h
  · intro p hp
    fin_cases hp
    · exact ⟨by decide, NetAdmin.head_ne_helper (by decide) _ _⟩
    · refine ⟨by decide, ?_⟩
      exact ⟨['\t'], ("IN".toList) ++ ['\t'], ['\t'], ("10.0.0.9".toList),
        by decide, by decide, by decide, by decide, by decide,
        ⟨'9', by decide, by decide⟩, by decide⟩
    · refine ⟨by decide, ?_⟩
      exact ⟨['\t'], ("IN".toList) ++ ['\t', 'A', 'A', 'A'], ['\t'],
        ("fe80::1".toList),
        by decide, by decide, by decide, by decide, by decide,
        ⟨'1', by decide, by decide⟩, by decide⟩
    · exact ⟨by decide, NetAdmin.head_ne_helper (by decide) _ _⟩
